import Mathlib

/-!
# Verification of the CTA document-structure validator

Shallow embedding of the validation core of `src/app/main_ai_studio.py`:

* `find_headings`    (lines 75-78)  - heading scanner over the regex
  `^\s{0,3}#{1,6}\s+(.+?)\s*$` with `re.MULTILINE`, compiled by hand with
  Python backtracking semantics;
* `count_words`      (lines 80-81)  - `len(re.findall(r"\b\w+\b", text))`;
* `extract_attack_ids` (lines 83-84) - `sorted(set(re.findall(r"\bT\d{4}\b", s)))`;
* `validate_cta`     (lines 86-123) - the section/length/identifier validator.

Strings are modelled on their code points (`String.data : List Char`), which is
exactly what Python string indices and `m.start()` denote.  The regex character
classes `\s`, `\w`, `\d` are modelled on their ASCII fragment (every input that
appears in the source, its tests and the theorems below is ASCII).

All definitions are structurally recursive, so every concrete instance
evaluates by `decide`/`rfl`.
-/

namespace CTA

/-! ## Character classes -/

/-- ASCII fragment of the regex class `\s` (Python: space, tab, newline,
carriage return, vertical tab, form feed). -/
def isWS (c : Char) : Bool :=
  c = ' ' || c = '\t' || c = '\n' || c = '\r' || c = '\x0b' || c = '\x0c'

/-- ASCII fragment of the regex class `\w`: alphanumeric or underscore. -/
def isWordChar (c : Char) : Bool :=
  c.isAlphanum || c = '_'

theorem length_dropWhile_le (p : Char → Bool) (l : List Char) :
    (l.dropWhile p).length ≤ l.length := by
  induction l with
  | nil => simp [List.dropWhile]
  | cons c rest ih =>
    rw [List.dropWhile_cons]
    cases h : p c
    · simp
    · rw [if_pos rfl]
      simp only [List.length_cons]
      omega

/-! ## Maximal runs

`maximalRuns p l` is the list of maximal contiguous runs of characters
satisfying `p`, in order.  This is the claim-side reading of the spec's
"maximal runs of alphanumeric-or-underscore characters" and of "occurring at
word boundaries, not embedded in a longer run of word characters". -/

def maximalRuns (p : Char → Bool) : List Char → List (List Char)
  | [] => []
  | c :: rest =>
    if p c then (c :: rest.takeWhile p) :: maximalRuns p (rest.dropWhile p)
    else maximalRuns p rest
termination_by l => l.length
decreasing_by
  · exact Nat.lt_succ_of_le (length_dropWhile_le p rest)
  · simp

@[simp] theorem maximalRuns_nil (p : Char → Bool) : maximalRuns p [] = [] := by
  rw [maximalRuns]

theorem maximalRuns_cons (p : Char → Bool) (c : Char) (rest : List Char) :
    maximalRuns p (c :: rest) =
      if p c then (c :: rest.takeWhile p) :: maximalRuns p (rest.dropWhile p)
      else maximalRuns p rest := by
  rw [maximalRuns]

/-! ## `count_words`

Source (main_ai_studio.py:80-81):
```
def count_words(text: str) -> int:
    return len([w for w in re.findall(r"\b\w+\b", text or "")])
```
`re.findall` scans left to right.  A match of `\b\w+\b` can begin exactly where
a word character is not preceded by a word character (that is the left `\b`);
`\w+` then greedily swallows the maximal run and the right `\b` holds at its
end.  Inside a run the left `\b` fails, so no further match begins before the
run ends, and `finditer`'s resumption at `m.end()` skips exactly positions at
which no match could begin anyway.  Counting the non-word-to-word flips
therefore counts the matches; the scanner below carries the one bit of state
the boundary test needs (whether the previous character was a word
character). -/

def cwScan : Bool → List Char → Nat
  | _, [] => 0
  | prevW, c :: rest =>
    (if !prevW && isWordChar c then 1 else 0) + cwScan (isWordChar c) rest

/-- Embedding of `count_words` (main_ai_studio.py:80-81). -/
def count_words (text : String) : Nat :=
  cwScan false text.data

theorem cwScan_nil (b : Bool) : cwScan b [] = 0 := rfl

theorem cwScan_cons (b : Bool) (c : Char) (rest : List Char) :
    cwScan b (c :: rest) =
      (if !b && isWordChar c then 1 else 0) + cwScan (isWordChar c) rest := rfl

/-- Starting the scanner mid-run: with the previous-character bit set, no
match can begin until the current run ends. -/
theorem cwScan_true (l : List Char) :
    cwScan true l = cwScan false (l.dropWhile isWordChar) := by
  induction l with
  | nil => simp [cwScan_nil, List.dropWhile]
  | cons c rest ih =>
    rw [cwScan_cons, List.dropWhile_cons]
    cases h : isWordChar c with
    | true => simpa [h] using ih
    | false => simp [cwScan_cons, h]

theorem cwScan_false_len : ∀ (n : Nat) (l : List Char), l.length ≤ n →
    cwScan false l = (maximalRuns isWordChar l).length := by
  intro n
  induction n with
  | zero =>
    intro l hl
    have : l = [] := List.length_eq_zero.mp (Nat.le_zero.mp hl)
    subst this
    simp [cwScan_nil]
  | succ n ih =>
    intro l hl
    match l with
    | [] => simp [cwScan_nil]
    | c :: rest =>
      rw [cwScan_cons, maximalRuns_cons]
      cases h : isWordChar c with
      | true =>
        simp only [h, Bool.not_false, Bool.true_and, if_true]
        rw [cwScan_true]
        have hlen : (rest.dropWhile isWordChar).length ≤ n := by
          have := length_dropWhile_le isWordChar rest
          simp only [List.length_cons] at hl
          omega
        rw [ih _ hlen]
        simp only [List.length_cons]
        omega
      | false =>
        have hlen : rest.length ≤ n := by
          simp only [List.length_cons] at hl
          omega
        simpa [h] using ih rest hlen

/-- The `re.findall(r"\b\w+\b", ...)` count is the number of maximal runs of
word characters. -/
theorem cwScan_false_eq (l : List Char) :
    cwScan false l = (maximalRuns isWordChar l).length :=
  cwScan_false_len l.length l (Nat.le_refl _)

/-! ## `extract_attack_ids`

Source (main_ai_studio.py:83-84):
```
def extract_attack_ids(s: str) -> List[str]:
    return sorted(set(re.findall(r"\bT\d{4}\b", s)))
```
The pattern matches a literal `T` at a left word boundary, exactly four
digits, and a right word boundary.  The hand-compiled scanner below walks the
text with the previous-character word bit and fires where `\b T \d{4} \b`
holds.  As with `count_words`, `finditer`'s resumption at `m.end()` only skips
positions whose previous character is a word character, where the left `\b`
fails and no match could begin, so the char-by-char walk collects exactly the
`findall` matches in order. -/

/-- The right word-boundary test: end of input or a non-word character next. -/
def tidBoundary : List Char → Bool
  | [] => true
  | c :: _ => !isWordChar c

/-- Four digits followed by a right word boundary. -/
def tidDigits : List Char → Bool
  | a :: b :: d :: e :: r => a.isDigit && b.isDigit && d.isDigit && e.isDigit && tidBoundary r
  | _ => false

/-- The whole pattern `\bT\d{4}\b` anchored at the current character. -/
def tidAt (prevW : Bool) (c : Char) (rest : List Char) : Bool :=
  !prevW && c = 'T' && tidDigits rest

def tidScan : Bool → List Char → List (List Char)
  | _, [] => []
  | prevW, c :: rest =>
    (if tidAt prevW c rest then [c :: rest.take 4] else []) ++
      tidScan (isWordChar c) rest

/-- Executable lexicographic comparison of code-point lists, agreeing with
Mathlib's list order (`listLexLe_iff`). -/
def listLexLe : List Char → List Char → Bool
  | [], _ => true
  | _ :: _, [] => false
  | a :: as, b :: bs =>
    if a < b then true else if b < a then false else listLexLe as bs

/-- Executable string comparison: Python's `<=` on strings compares code
points lexicographically, which is also Mathlib's `LinearOrder String`
(`strLe_iff`). -/
def strLe (a b : String) : Bool := listLexLe a.data b.data

theorem list_char_lt (a b : List Char) : a < b ↔ List.Lex (· < ·) a b := Iff.rfl

theorem listLexLe_iff : ∀ (a b : List Char), listLexLe a b = true ↔ ¬ List.Lex (· < ·) b a
  | [], b => by
    simp only [listLexLe]
    simp only [true_iff]
    exact List.Lex.not_nil_right _ _
  | x :: xs, [] => by
    simp only [listLexLe]
    simp only [Bool.false_eq_true, false_iff, not_not]
    exact List.Lex.nil
  | x :: xs, y :: ys => by
    rcases lt_trichotomy x y with hxy | heq | hyx
    · rw [listLexLe]
      rw [if_pos hxy]
      simp only [true_iff]
      intro h
      cases h with
      | cons h2 => exact absurd hxy (lt_irrefl _)
      | rel h2 => exact absurd h2 (asymm hxy)
    · subst heq
      rw [listLexLe, if_neg (lt_irrefl x), if_neg (lt_irrefl x)]
      rw [listLexLe_iff xs ys, List.Lex.cons_iff]
    · rw [listLexLe, if_neg (asymm hyx), if_pos hyx]
      have hlex : List.Lex (· < ·) (y :: ys) (x :: xs) := List.Lex.rel hyx
      simp [hlex]

theorem strLe_iff (s t : String) : strLe s t = true ↔ s ≤ t := by
  rw [strLe, listLexLe_iff s.data t.data, String.le_iff_toList_le, ← not_lt]
  rw [String.toList, String.toList, list_char_lt]

/-- Model of Python `sorted(set(xs))` for strings: deduplicate, then sort by
the lexicographic order on code points (which is what Python `sorted` uses and
what Mathlib's `LinearOrder String` provides, `strLe_iff`).  A sorted
duplicate-free list is determined by its members, so any correct sort gives
Python's answer; insertion sort is used because it evaluates by `decide`. -/
def pySortedSet (l : List String) : List String :=
  List.insertionSort (fun a b => strLe a b = true) l.dedup

/-- Embedding of `extract_attack_ids` (main_ai_studio.py:83-84). -/
def extract_attack_ids (s : String) : List String :=
  pySortedSet ((tidScan false s.data).map (fun cs => String.mk cs))

/-- Claim-side pattern: a literal `T` followed by exactly four digits and
nothing else.  A maximal word-character run satisfying this is precisely an
occurrence of `\bT\d{4}\b`. -/
def isTid : List Char → Bool
  | c :: a :: b :: d :: e :: [] =>
      c = 'T' && a.isDigit && b.isDigit && d.isDigit && e.isDigit
  | _ => false

theorem tidScan_nil (b : Bool) : tidScan b [] = [] := rfl

theorem tidScan_cons (b : Bool) (c : Char) (rest : List Char) :
    tidScan b (c :: rest) =
      (if tidAt b c rest then [c :: rest.take 4] else []) ++
        tidScan (isWordChar c) rest := rfl

theorem isWordChar_of_isDigit {c : Char} (h : c.isDigit = true) :
    isWordChar c = true := by
  simp [isWordChar, Char.isAlphanum, h]

theorem tidBoundary_dropWhile (l : List Char) :
    tidBoundary (l.dropWhile isWordChar) = true := by
  induction l with
  | nil => simp [List.dropWhile, tidBoundary]
  | cons c rest ih =>
    rw [List.dropWhile_cons]
    cases h : isWordChar c with
    | true => simpa using ih
    | false => simp [tidBoundary, h]

theorem takeWhile_eq_nil_of_boundary {r : List Char} (h : tidBoundary r = true) :
    r.takeWhile isWordChar = [] ∧ r.dropWhile isWordChar = r := by
  cases r with
  | nil => simp [List.takeWhile, List.dropWhile]
  | cons c rest =>
    simp only [tidBoundary, Bool.not_eq_true'] at h
    simp [List.takeWhile_cons, List.dropWhile_cons, h]

theorem tidAt_not_word {prevW : Bool} {c : Char} {rest : List Char}
    (h : isWordChar c = false) : tidAt prevW c rest = false := by
  have hc : ¬ (c = 'T') := by
    intro hc; subst hc; simp [isWordChar, Char.isAlphanum] at h
  simp [tidAt, hc]

/-- Starting the scanner mid-run: with the previous-character bit set, no
match can begin until the current run ends. -/
theorem tidScan_true (l : List Char) :
    tidScan true l = tidScan false (l.dropWhile isWordChar) := by
  induction l with
  | nil => simp [tidScan_nil, List.dropWhile]
  | cons c rest ih =>
    rw [tidScan_cons, List.dropWhile_cons]
    have hAt : tidAt true c rest = false := by simp [tidAt]
    rw [hAt]
    cases h : isWordChar c with
    | true => simpa using ih
    | false =>
      have hAt2 := @tidAt_not_word false c rest h
      rw [if_neg (by simp), if_neg (by simp), tidScan_cons, hAt2, h]
      simp

theorem tidAt_of_parts {c a b d e : Char} {r : List Char}
    (hc : c = 'T') (ha : a.isDigit = true) (hb : b.isDigit = true)
    (hd : d.isDigit = true) (he : e.isDigit = true) (hr : tidBoundary r = true) :
    tidAt false c (a :: b :: d :: e :: r) = true := by
  simp [tidAt, tidDigits, hc, ha, hb, hd, he, hr]

theorem tidAt_true_elim {c : Char} {rest : List Char}
    (h : tidAt false c rest = true) :
    c = 'T' ∧ ∃ a b d e r, rest = a :: b :: d :: e :: r ∧
      a.isDigit = true ∧ b.isDigit = true ∧ d.isDigit = true ∧ e.isDigit = true ∧
      tidBoundary r = true := by
  simp only [tidAt, Bool.not_false, Bool.true_and, Bool.and_eq_true,
    decide_eq_true_eq] at h
  obtain ⟨hc, hdig⟩ := h
  refine ⟨hc, ?_⟩
  match rest, hdig with
  | a :: b :: d :: e :: r, hdig =>
    simp only [tidDigits, Bool.and_eq_true] at hdig
    exact ⟨a, b, d, e, r, rfl, hdig.1.1.1.1, hdig.1.1.1.2, hdig.1.1.2, hdig.1.2, hdig.2⟩

theorem tidScan_false_len : ∀ (n : Nat) (l : List Char), l.length ≤ n →
    tidScan false l = (maximalRuns isWordChar l).filter isTid := by
  intro n
  induction n with
  | zero =>
    intro l hl
    have : l = [] := List.length_eq_zero.mp (Nat.le_zero.mp hl)
    subst this
    simp [tidScan_nil]
  | succ n ih =>
    intro l hl
    match l with
    | [] => simp [tidScan_nil]
    | c :: rest =>
      rw [tidScan_cons, maximalRuns_cons]
      cases hw : isWordChar c with
      | false =>
        rw [tidAt_not_word hw, if_neg (by simp), if_neg (by simp)]
        simpa using ih rest (by simp only [List.length_cons] at hl; omega)
      | true =>
        rw [if_pos rfl]
        cases hAt : tidAt false c rest with
        | true =>
          obtain ⟨hc, a, b, d, e, r, hrest, ha, hb, hd, he, hr⟩ := tidAt_true_elim hAt
          subst hrest
          obtain ⟨htw, hdw⟩ := takeWhile_eq_nil_of_boundary hr
          have hwa := isWordChar_of_isDigit ha
          have hwb := isWordChar_of_isDigit hb
          have hwd := isWordChar_of_isDigit hd
          have hwe := isWordChar_of_isDigit he
          have hrun : isTid (c :: a :: b :: d :: e :: []) = true := by
            simp [isTid, hc, ha, hb, hd, he]
          have hr5 : r.length ≤ n := by
            simp only [List.length_cons] at hl; omega
          rw [if_pos rfl, tidScan_true]
          simp only [List.takeWhile_cons, hwa, hwb, hwd, hwe, if_true,
            List.dropWhile_cons, htw, hdw, List.take]
          rw [List.filter_cons, if_pos (by simpa using hrun), ih r hr5]
          simp
        | false =>
          rw [if_neg (by simp), tidScan_true]
          have hlen : (rest.dropWhile isWordChar).length ≤ n := by
            have := length_dropWhile_le isWordChar rest
            simp only [List.length_cons] at hl
            omega
          rw [ih _ hlen, List.filter_cons]
          have hnotTid : isTid (c :: rest.takeWhile isWordChar) = false := by
            cases htid : isTid (c :: rest.takeWhile isWordChar) with
            | false => rfl
            | true =>
              exfalso
              have hshape := htid
              unfold isTid at hshape
              match htw : rest.takeWhile isWordChar, hshape with
              | a :: b :: d :: e :: [], hshape =>
                simp only [Bool.and_eq_true, decide_eq_true_eq] at hshape
                obtain ⟨⟨⟨⟨hc, ha⟩, hb⟩, hd⟩, he⟩ := hshape
                have hsplit : rest = a :: b :: d :: e :: rest.dropWhile isWordChar := by
                  conv_lhs => rw [← List.takeWhile_append_dropWhile isWordChar rest]
                  rw [htw]
                  simp
                have : tidAt false c rest = true := by
                  rw [hsplit]
                  exact tidAt_of_parts hc ha hb hd he (tidBoundary_dropWhile rest)
                rw [hAt] at this
                exact Bool.false_ne_true this
          rw [if_neg (by simp [hnotTid])]
          simp

theorem tidScan_false_eq (l : List Char) :
    tidScan false l = (maximalRuns isWordChar l).filter isTid :=
  tidScan_false_len l.length l (Nat.le_refl _)

theorem mem_pySortedSet {t : String} {l : List String} :
    t ∈ pySortedSet l ↔ t ∈ l := by
  unfold pySortedSet
  rw [(List.perm_insertionSort _ _).mem_iff, List.mem_dedup]

theorem pySortedSet_sorted (l : List String) :
    List.Sorted (· < ·) (pySortedSet l) := by
  unfold pySortedSet
  haveI htot : IsTotal String (fun a b => strLe a b = true) := ⟨by
    intro a b
    rcases le_total a b with h | h
    · exact Or.inl ((strLe_iff a b).mpr h)
    · exact Or.inr ((strLe_iff b a).mpr h)⟩
  haveI htr : IsTrans String (fun a b => strLe a b = true) := ⟨by
    intro a b c hab hbc
    exact (strLe_iff a c).mpr (le_trans ((strLe_iff a b).mp hab) ((strLe_iff b c).mp hbc))⟩
  have hs := List.sorted_insertionSort (fun a b => strLe a b = true) l.dedup
  have hnd : (List.insertionSort (fun a b => strLe a b = true) l.dedup).Nodup :=
    (List.perm_insertionSort (fun a b => strLe a b = true) l.dedup).symm.nodup
      (List.nodup_dedup l)
  have hle : List.Sorted (fun a b : String => a ≤ b)
      (List.insertionSort (fun a b => strLe a b = true) l.dedup) :=
    hs.imp (fun h => (strLe_iff _ _).mp h)
  have := hle.and hnd
  refine this.imp ?_
  intro a b h
  exact lt_of_le_of_ne h.1 h.2

theorem mem_extract_attack_ids {t : String} {s : String} :
    t ∈ extract_attack_ids s ↔ t.data ∈ tidScan false s.data := by
  unfold extract_attack_ids
  rw [mem_pySortedSet, List.mem_map]
  constructor
  · rintro ⟨cs, hcs, rfl⟩
    exact hcs
  · intro h
    exact ⟨t.data, h, by cases t; rfl⟩

/-- C9: `count_words` counts the maximal runs of alphanumeric-or-underscore
characters of its input. -/
theorem count_words_counts_maximal_runs (s : String) :
    count_words s = (maximalRuns isWordChar s.data).length :=
  cwScan_false_eq s.data

/-- C8: `extract_attack_ids` returns a strictly sorted (hence duplicate-free)
list whose members are exactly the maximal word-character runs of the input
that consist of a literal `T` followed by exactly four digits - i.e. the
technique identifiers occurring at word boundaries, not embedded in a longer
run of word characters.  Sortedness makes the output deterministic and
independent of where in the input the matches occur. -/
theorem extract_attack_ids_sorted_set_of_boundary_tokens (s : String) :
    List.Sorted (· < ·) (extract_attack_ids s) ∧
      ∀ t : String, t ∈ extract_attack_ids s ↔
        (t.data ∈ maximalRuns isWordChar s.data ∧ isTid t.data = true) := by
  constructor
  · exact pySortedSet_sorted _
  · intro t
    rw [mem_extract_attack_ids, tidScan_false_eq, List.mem_filter]

/-! ## Python string helpers used by `validate_cta` -/

/-- Python `str.strip()` on code points (ASCII whitespace fragment). -/
def stripChars (l : List Char) : List Char :=
  ((l.dropWhile isWS).reverse.dropWhile isWS).reverse

/-- Python `str.title()` (ASCII fragment): the first letter of every run of
letters is uppercased, the following letters lowercased, other characters are
kept; the Boolean carries whether the previous character was a letter. -/
def pyTitleAux : Bool → List Char → List Char
  | _, [] => []
  | prevAlpha, c :: rest =>
    (if c.isAlpha then (if prevAlpha then c.toLower else c.toUpper) else c) ::
      pyTitleAux c.isAlpha rest

def pyTitle (s : String) : String :=
  String.mk (pyTitleAux false s.data)

/-- Python `repr` of a list of simple strings as interpolated by an f-string,
e.g. `['T1059', 'T1578']` (`\x27` is the apostrophe). -/
def pyListRepr (l : List String) : String :=
  "[" ++ String.intercalate (", ") (l.map (fun s => "\x27" ++ s ++ "\x27")) ++ "]"

/-- Python truthiness of `sections.get(k)`: `None` and the empty string are
falsy, every other string (including whitespace) is truthy. -/
def truthyGet : Option String → Bool
  | none => false
  | some s => !s.isEmpty

/-- Python `not body.strip()`: the body is empty or whitespace only. -/
def isBlankStr (s : String) : Bool :=
  (stripChars s.data).isEmpty

/-! ## `validate_cta`

Source (main_ai_studio.py:86-123).  The `sections` dict maps lowercased
keys (underscores replaced by spaces) to body text; it is modelled as an
association list in insertion order with unique keys, `dict.get` being
`List.lookup`.  Python defaults are `min_words=80`,
`require_attack_ids=True`. -/

/-- Python `"\n".join(xs)` (main_ai_studio.py:119). -/
def pyJoin (sep : String) : List String → String
  | [] => ""
  | [x] => x
  | x :: xs => x ++ sep ++ pyJoin sep xs

/-- The error string of main_ai_studio.py:98. -/
def findingsMissingMsg : String :=
  "Missing required section: Findings or Suspicious Activity Hits"

/-- The error string of main_ai_studio.py:104: `f"Missing required section: {key.title()}"`. -/
def missingMsg (key : String) : String :=
  "Missing required section: " ++ pyTitle key

/-- The error string of main_ai_studio.py:109:
`f"Section '{key.title()}' is too short ({wc} words < {min_words})."`. -/
def tooShortMsg (key : String) (wc mw : Nat) : String :=
  "Section \x27" ++ pyTitle key ++ "\x27 is too short (" ++ toString wc ++
    " words < " ++ toString mw ++ ")."

/-- The error string of main_ai_studio.py:121:
`f"ATT&CK IDs from idea not reflected in output: expected one of {idea_ids}"`. -/
def attackMsg (ideaIds : List String) : String :=
  "ATT&CK IDs from idea not reflected in output: expected one of " ++
    pyListRepr ideaIds

/-- The `required` list of main_ai_studio.py:100. -/
def requiredKeys : List String :=
  [("background"), ("hypothesis"), ("analysis"), ("recommendations"),
   ("additional research"), ("resources")]

/-- One iteration of the `for key in required` loop
(main_ai_studio.py:101-109), threading the `errors` and `word_counts`
accumulators. -/
def sectionStep (sections : List (String × String)) (mw : Nat)
    (acc : List String × List (String × Nat)) (key : String) :
    List String × List (String × Nat) :=
  let body := (sections.lookup key).getD ("")
  if isBlankStr body then
    (acc.1 ++ [missingMsg key], acc.2)
  else
    (acc.1 ++ (if count_words body < mw then [tooShortMsg key (count_words body) mw] else []),
     acc.2 ++ [(pyTitle key, count_words body)])

/-- Embedding of `validate_cta` (main_ai_studio.py:86-123).  The function is
total: validation failures are returned as data, never raised. -/
def validate_cta (sections : List (String × String)) (idea : String)
    (min_words : Nat) (require_attack_ids : Bool) :
    Bool × List String × List (String × Nat) :=
  let errors0 : List String :=
    if truthyGet (sections.lookup ("findings")) ||
        truthyGet (sections.lookup ("suspicious activity hits")) then []
    else [findingsMissingMsg]
  let st := requiredKeys.foldl (sectionStep sections min_words) (errors0, [])
  let appendixBody := (sections.lookup ("appendix")).getD ("")
  let word_counts :=
    if !appendixBody.isEmpty then
      st.2 ++ [(("Appendix"), count_words appendixBody)]
    else st.2
  let errors :=
    if require_attack_ids then
      let idea_ids := extract_attack_ids idea
      if !idea_ids.isEmpty then
        let found_ids := extract_attack_ids
          (pyJoin ("\n") (sections.map Prod.snd))
        if !(idea_ids.any (fun i => found_ids.contains i)) then
          st.1 ++ [attackMsg idea_ids]
        else st.1
      else st.1
    else st.1
  (errors.isEmpty, errors, word_counts)

/-! ### The individual checks, for stating the claims -/

/-- The Findings/Suspicious-Activity-Hits check (main_ai_studio.py:95-98) as
the list of errors it appends. -/
def checkFindings (sections : List (String × String)) : List String :=
  if truthyGet (sections.lookup ("findings")) ||
      truthyGet (sections.lookup ("suspicious activity hits")) then []
  else [findingsMissingMsg]

/-- The errors one required key contributes (main_ai_studio.py:101-109). -/
def sectionErrors (sections : List (String × String)) (key : String) (mw : Nat) :
    List String :=
  let body := (sections.lookup key).getD ("")
  if isBlankStr body then [missingMsg key]
  else if count_words body < mw then [tooShortMsg key (count_words body) mw]
  else []

/-- The word-count entry one required key contributes. -/
def sectionCounts (sections : List (String × String)) (key : String) :
    List (String × Nat) :=
  let body := (sections.lookup key).getD ("")
  if isBlankStr body then []
  else [(pyTitle key, count_words body)]

/-- The optional appendix word count (main_ai_studio.py:111-113); no error is
ever produced here. -/
def appendixCounts (sections : List (String × String)) : List (String × Nat) :=
  let body := (sections.lookup ("appendix")).getD ("")
  if !body.isEmpty then [(("Appendix"), count_words body)] else []

/-- The identifier-propagation check (main_ai_studio.py:115-121) as the list
of errors it appends. -/
def attackErrors (sections : List (String × String)) (idea : String)
    (req : Bool) : List String :=
  if req then
    let idea_ids := extract_attack_ids idea
    if !idea_ids.isEmpty then
      let found_ids := extract_attack_ids
        (pyJoin ("\n") (sections.map Prod.snd))
      if !(idea_ids.any (fun i => found_ids.contains i)) then [attackMsg idea_ids]
      else []
    else []
  else []

theorem sectionStep_split (sections : List (String × String)) (mw : Nat)
    (acc : List String × List (String × Nat)) (key : String) :
    sectionStep sections mw acc key =
      (acc.1 ++ sectionErrors sections key mw,
       acc.2 ++ sectionCounts sections key) := by
  simp only [sectionStep, sectionErrors, sectionCounts]
  split_ifs <;> simp

theorem foldl_sectionStep (sections : List (String × String)) (mw : Nat) :
    ∀ (ks : List String) (e : List String) (w : List (String × Nat)),
      ks.foldl (sectionStep sections mw) (e, w) =
        (e ++ (ks.map (fun k => sectionErrors sections k mw)).flatten,
         w ++ (ks.map (fun k => sectionCounts sections k)).flatten) := by
  intro ks
  induction ks with
  | nil => intro e w; simp
  | cons k ks ih =>
    intro e w
    rw [List.foldl_cons, sectionStep_split, ih]
    simp [List.append_assoc]

/-- Full decomposition of `validate_cta`: the error list is the concatenation
of the checks in source order, the word counts likewise, and `ok` is the
emptiness test of the error list. -/
theorem validate_cta_decomp (sections : List (String × String)) (idea : String)
    (mw : Nat) (req : Bool) :
    validate_cta sections idea mw req =
      ((checkFindings sections ++
          (requiredKeys.map (fun k => sectionErrors sections k mw)).flatten ++
          attackErrors sections idea req).isEmpty,
        checkFindings sections ++
          (requiredKeys.map (fun k => sectionErrors sections k mw)).flatten ++
          attackErrors sections idea req,
        (requiredKeys.map (fun k => sectionCounts sections k)).flatten ++
          appendixCounts sections) := by
  simp only [validate_cta, checkFindings, attackErrors, appendixCounts,
    foldl_sectionStep]
  split_ifs <;> simp [List.append_assoc]

theorem truthyGet_iff (o : Option String) :
    truthyGet o = true ↔ ∃ b, o = some b ∧ b ≠ ("") := by
  cases o with
  | none => simp [truthyGet]
  | some s =>
    simp only [truthyGet, Bool.not_eq_true', Option.some.injEq]
    constructor
    · intro h
      refine ⟨s, rfl, ?_⟩
      intro hs
      rw [← String.isEmpty_iff] at hs
      rw [hs] at h
      cases h
    · rintro ⟨b, rfl, hb⟩
      cases he : s.isEmpty with
      | false => rfl
      | true => exact absurd ((String.isEmpty_iff s).mp he) hb

theorem sectionErrors_absent {sections : List (String × String)} {key : String}
    (h : sections.lookup key = none) (mw : Nat) :
    sectionErrors sections key mw = [missingMsg key] := by
  simp [sectionErrors, h, isBlankStr, stripChars, List.dropWhile]

theorem sectionCounts_absent {sections : List (String × String)} {key : String}
    (h : sections.lookup key = none) :
    sectionCounts sections key = [] := by
  simp [sectionCounts, h, isBlankStr, stripChars, List.dropWhile]

theorem checkFindings_eq_nil_iff (sections : List (String × String)) :
    checkFindings sections = [] ↔
      (truthyGet (sections.lookup ("findings")) ||
        truthyGet (sections.lookup ("suspicious activity hits"))) = true := by
  unfold checkFindings
  split_ifs with h
  · simpa using h
  · simpa using h

/-- C1: `validate_cta` always returns the structured `(ok, errors, word_counts)`
triple - totality of this Lean function mirrors that the source never raises an
exception for a validation failure - `ok` is true iff the error list is empty,
and the errors are exactly the concatenation, in order, of: the
Findings/Suspicious-Activity check first, then the six other required sections
in the fixed order background, hypothesis, analysis, recommendations,
additional research, resources, then the identifier-propagation check last. -/
theorem validate_cta_ordered_checklist (sections : List (String × String))
    (idea : String) (mw : Nat) (req : Bool) :
    (validate_cta sections idea mw req =
      ((checkFindings sections ++
          (sectionErrors sections ("background") mw ++
            (sectionErrors sections ("hypothesis") mw ++
              (sectionErrors sections ("analysis") mw ++
                (sectionErrors sections ("recommendations") mw ++
                  (sectionErrors sections ("additional research") mw ++
                    sectionErrors sections ("resources") mw)))))  ++
          attackErrors sections idea req).isEmpty,
        checkFindings sections ++
          (sectionErrors sections ("background") mw ++
            (sectionErrors sections ("hypothesis") mw ++
              (sectionErrors sections ("analysis") mw ++
                (sectionErrors sections ("recommendations") mw ++
                  (sectionErrors sections ("additional research") mw ++
                    sectionErrors sections ("resources") mw)))))  ++
          attackErrors sections idea req,
        sectionCounts sections ("background") ++
          (sectionCounts sections ("hypothesis") ++
            (sectionCounts sections ("analysis") ++
              (sectionCounts sections ("recommendations") ++
                (sectionCounts sections ("additional research") ++
                  sectionCounts sections ("resources"))))) ++
          appendixCounts sections)) ∧
    ((validate_cta sections idea mw req).1 = true ↔
      (validate_cta sections idea mw req).2.1 = []) := by
  constructor
  · rw [validate_cta_decomp]
    simp [requiredKeys, List.append_assoc]
  · rw [validate_cta_decomp]
    simp [List.isEmpty_iff]

/-- C2 counterexample: a section mapping holding a non-empty body under the
label `suspicious activity` alone (one of the three labels the claim says
satisfies the pair) still receives the missing-Findings error, because the
code tests only `findings` and `suspicious activity hits`. -/
theorem findings_alias_counterexample :
    (List.lookup ("suspicious activity")
        [(("suspicious activity"), ("threat data"))] = some ("threat data")) ∧
    ("threat data" : String) ≠ ("") ∧
    findingsMissingMsg ∈
      (validate_cta [(("suspicious activity"), ("threat data"))] ("") 80 false).2.1 := by
  decide

/-- C2 (amended): the Findings requirement is satisfied - no missing-Findings
error is appended, i.e. that check contributes the empty error list - if and
only if the mapping holds a non-empty body under `findings` or under
`suspicious activity hits`; the bare label `suspicious activity` does not
count. -/
theorem findings_pair_satisfied_iff (sections : List (String × String))
    (idea : String) (mw : Nat) (req : Bool) :
    (∃ rest, (validate_cta sections idea mw req).2.1 =
        checkFindings sections ++ rest) ∧
    (checkFindings sections = [] ↔
      (∃ b, sections.lookup ("findings") = some b ∧ b ≠ ("")) ∨
      (∃ b, sections.lookup ("suspicious activity hits") = some b ∧ b ≠ (""))) := by
  constructor
  · refine ⟨(requiredKeys.map (fun k => sectionErrors sections k mw)).flatten ++
      attackErrors sections idea req, ?_⟩
    rw [validate_cta_decomp]
    simp [List.append_assoc]
  · rw [checkFindings_eq_nil_iff, Bool.or_eq_true, truthyGet_iff, truthyGet_iff]

/-- C3 counterexample: on the empty section mapping with the identifier check
enabled and an identifier-bearing idea, `validate_cta` returns eight errors,
not the claimed seven - the seven missing-section errors are followed by the
identifier-propagation error. -/
theorem empty_sections_eight_errors :
    (validate_cta [] ("T1059") 80 true).2.1 =
      [("Missing required section: Findings or Suspicious Activity Hits"),
       ("Missing required section: Background"),
       ("Missing required section: Hypothesis"),
       ("Missing required section: Analysis"),
       ("Missing required section: Recommendations"),
       ("Missing required section: Additional Research"),
       ("Missing required section: Resources"),
       ("ATT&CK IDs from idea not reflected in output: expected one of [\x27T1059\x27]")] ∧
    ((validate_cta [] ("T1059") 80 true).2.1).length = 8 := by
  constructor
  · decide
  · decide

/-- C3 (amended): for the empty section mapping, `validate_cta` returns
`ok = false`, an empty word-count mapping, and the seven missing-section
errors (the Findings pair and the six other required sections, in order);
these are exactly the errors - so exactly seven - unless the identifier check
is enabled and the idea text contains identifiers, in which case the
identifier-propagation error follows as an eighth (the empty document
contains no identifiers). -/
theorem validate_cta_empty_sections (idea : String) (mw : Nat) (req : Bool) :
    validate_cta [] idea mw req =
      (false,
        [findingsMissingMsg, missingMsg ("background"), missingMsg ("hypothesis"),
         missingMsg ("analysis"), missingMsg ("recommendations"),
         missingMsg ("additional research"), missingMsg ("resources")] ++
          (if req = true ∧ extract_attack_ids idea ≠ [] then
            [attackMsg (extract_attack_ids idea)]
          else []),
        []) := by
  rw [validate_cta_decomp]
  have hck : checkFindings [] = [findingsMissingMsg] := by decide
  have hatk : attackErrors [] idea req =
      (if req = true ∧ extract_attack_ids idea ≠ [] then
        [attackMsg (extract_attack_ids idea)]
      else []) := by
    unfold attackErrors
    cases req with
    | false => simp
    | true =>
      cases hii : extract_attack_ids idea with
      | nil => simp [hii]
      | cons x xs =>
        have hfe : extract_attack_ids (pyJoin ("\n") ([] : List String)) = [] := by
          decide
        simp [hii, hfe]
  have hse : ∀ k (mw2 : Nat), sectionErrors [] k mw2 = [missingMsg k] :=
    fun k mw2 => @sectionErrors_absent [] k rfl mw2
  have hsc : ∀ k, sectionCounts ([] : List (String × String)) k = [] :=
    fun k => @sectionCounts_absent [] k rfl
  have happ : appendixCounts [] = [] := by decide
  rw [hck, hatk]
  simp only [requiredKeys, List.map_cons, List.map_nil, hse, hsc,
    List.flatten_cons, List.flatten_nil, happ]
  simp [Prod.ext_iff, List.isEmpty_iff]

theorem lookup_sectionCounts_ne {sections : List (String × String)} {t k : String}
    (h : (t == pyTitle k) = false) :
    List.lookup t (sectionCounts sections k) = none := by
  simp only [sectionCounts]
  split_ifs <;> simp [List.lookup, h]

theorem lookup_skip {t : String} {sections : List (String × String)} {k : String}
    (h : (t == pyTitle k) = false) (ys : List (String × Nat)) :
    List.lookup t (sectionCounts sections k ++ ys) = List.lookup t ys := by
  rw [List.lookup_append, lookup_sectionCounts_ne h]
  rfl

theorem lookup_hit {t : String} {wc : Nat} (ys : List (String × Nat)) :
    List.lookup t ([(t, wc)] ++ ys) = some wc := by
  rw [List.lookup_append]
  simp [List.lookup, Option.or]

theorem str_append_head {s : String} {c : Char} (h : s.data.head? = some c)
    (t : String) : (s ++ t).data.head? = some c := by
  rw [String.data_append, List.head?_append_of_ne_nil]
  · exact h
  · intro habs
    rw [habs] at h
    simp at h

theorem tooShortMsg_head (k : String) (w m : Nat) :
    (tooShortMsg k w m).data.head? = some ('S') := by
  unfold tooShortMsg
  exact str_append_head
    (show ("Section \x27").data.head? = some ('S') from rfl) _

theorem missingMsg_head (k : String) :
    (missingMsg k).data.head? = some ('M') := by
  unfold missingMsg
  exact str_append_head
    (show ("Missing required section: ").data.head? = some ('M') from rfl) _

theorem attackMsg_head (ids : List String) :
    (attackMsg ids).data.head? = some ('A') := by
  unfold attackMsg
  exact str_append_head
    (show ("ATT&CK IDs from idea not reflected in output: expected one of ").data.head?
      = some ('A') from rfl) _

theorem mem_checkFindings {sections : List (String × String)} {e : String}
    (h : e ∈ checkFindings sections) : e = findingsMissingMsg := by
  unfold checkFindings at h
  split_ifs at h
  · simp at h
  · simpa using h

theorem mem_sectionErrors {sections : List (String × String)} {k : String}
    {mw : Nat} {e : String} (h : e ∈ sectionErrors sections k mw) :
    e = missingMsg k ∨ ∃ w, e = tooShortMsg k w mw := by
  simp only [sectionErrors] at h
  split_ifs at h
  · exact Or.inl (by simpa using h)
  · exact Or.inr ⟨_, by simpa using h⟩
  · simp at h

theorem mem_attackErrors {sections : List (String × String)} {idea : String}
    {req : Bool} {e : String} (h : e ∈ attackErrors sections idea req) :
    ∃ ids, e = attackMsg ids := by
  simp only [attackErrors] at h
  split_ifs at h <;> simp at h
  exact ⟨_, h⟩

theorem ne_of_nonprefix_parts {T1 T2 : List Char}
    (h1 : ¬ T1 <+: T2) (h2 : ¬ T2 <+: T1) (X Y : List Char) :
    T1 ++ X ≠ T2 ++ Y := by
  intro h
  rcases List.append_eq_append_iff.mp h with ⟨a, ha, _⟩ | ⟨c, hc, _⟩
  · exact h1 ⟨a, ha.symm⟩
  · exact h2 ⟨c, hc.symm⟩

/-- No required section's title-cased name is a prefix of another's, so the
too-short messages of distinct required sections can never coincide. -/
theorem requiredTitles_nonoverlap : ∀ k ∈ requiredKeys, ∀ kk ∈ requiredKeys,
    k ≠ kk → ¬ ((pyTitle k).data <+: (pyTitle kk).data) := by decide

theorem tooShortMsg_ne_of_key_ne {k kk : String}
    (hk : k ∈ requiredKeys) (hkk : kk ∈ requiredKeys) (hne : k ≠ kk)
    (w ww m mm : Nat) : tooShortMsg k w m ≠ tooShortMsg kk ww mm := by
  intro h
  have hd := congrArg String.data h
  simp only [tooShortMsg, String.data_append, List.append_assoc] at hd
  have hd2 := List.append_cancel_left hd
  exact ne_of_nonprefix_parts (requiredTitles_nonoverlap k hk kk hkk hne)
    (requiredTitles_nonoverlap kk hkk k hk hne.symm) _ _ hd2

theorem tooShortMsg_ne_findings (k : String) (w m : Nat) :
    tooShortMsg k w m ≠ findingsMissingMsg := by
  intro h
  have h1 := tooShortMsg_head k w m
  rw [h] at h1
  have h2 : findingsMissingMsg.data.head? = some ('M') := rfl
  rw [h2] at h1
  exact absurd h1 (by decide)

theorem tooShortMsg_ne_missing (k kk : String) (w m : Nat) :
    tooShortMsg k w m ≠ missingMsg kk := by
  intro h
  have h1 := tooShortMsg_head k w m
  rw [h, missingMsg_head] at h1
  exact absurd h1 (by decide)

theorem tooShortMsg_ne_attack (k : String) (w m : Nat) (ids : List String) :
    tooShortMsg k w m ≠ attackMsg ids := by
  intro h
  have h1 := tooShortMsg_head k w m
  rw [h, attackMsg_head] at h1
  exact absurd h1 (by decide)

/-- C4: for every required section name whose body is present and not blank,
`validate_cta` records that section's word count in the word-count mapping
under the title-cased name; the section's own check contributes exactly the
too-short error naming the section and its count when the count is strictly
below the configured minimum and contributes nothing otherwise; the error
list is the ordered concatenation of all the checks' contributions; and the
too-short error is a member of the returned error list if and only if the
count is strictly below the minimum. -/
theorem section_count_recorded_and_too_short_iff
    (sections : List (String × String)) (idea : String) (mw : Nat) (req : Bool)
    (key : String) (hk : key ∈ requiredKeys)
    (hb : isBlankStr ((sections.lookup key).getD ("")) = false) :
    (List.lookup (pyTitle key) (validate_cta sections idea mw req).2.2 =
      some (count_words ((sections.lookup key).getD ("")))) ∧
    (sectionErrors sections key mw =
      (if count_words ((sections.lookup key).getD ("")) < mw then
        [tooShortMsg key (count_words ((sections.lookup key).getD (""))) mw]
      else [])) ∧
    ((validate_cta sections idea mw req).2.1 =
      checkFindings sections ++
        (requiredKeys.map (fun k => sectionErrors sections k mw)).flatten ++
        attackErrors sections idea req) ∧
    (tooShortMsg key (count_words ((sections.lookup key).getD (""))) mw ∈
        (validate_cta sections idea mw req).2.1 ↔
      count_words ((sections.lookup key).getD ("")) < mw) := by
  have hse : sectionErrors sections key mw =
      (if count_words ((sections.lookup key).getD ("")) < mw then
        [tooShortMsg key (count_words ((sections.lookup key).getD (""))) mw]
      else []) := by
    unfold sectionErrors
    rw [if_neg (by simp [hb])]
  have hsc : sectionCounts sections key =
      [(pyTitle key, count_words ((sections.lookup key).getD ("")))] := by
    unfold sectionCounts
    rw [if_neg (by simp [hb])]
  have h3 : (validate_cta sections idea mw req).2.1 =
      checkFindings sections ++
        (requiredKeys.map (fun k => sectionErrors sections k mw)).flatten ++
        attackErrors sections idea req := by
    rw [validate_cta_decomp]
  refine ⟨?_, hse, h3, ?_⟩
  · rw [validate_cta_decomp]
    dsimp only
    have hk2 := hk
    simp only [requiredKeys, List.mem_cons, List.not_mem_nil, or_false] at hk2
    simp only [requiredKeys, List.map_cons, List.map_nil, List.flatten_cons,
      List.flatten_nil, List.append_nil, List.append_assoc]
    rcases hk2 with rfl | rfl | rfl | rfl | rfl | rfl
    · rw [hsc]
      exact lookup_hit _
    · rw [lookup_skip (by decide), hsc]
      exact lookup_hit _
    · rw [lookup_skip (by decide), lookup_skip (by decide), hsc]
      exact lookup_hit _
    · rw [lookup_skip (by decide), lookup_skip (by decide), lookup_skip (by decide), hsc]
      exact lookup_hit _
    · rw [lookup_skip (by decide), lookup_skip (by decide), lookup_skip (by decide),
        lookup_skip (by decide), hsc]
      exact lookup_hit _
    · rw [lookup_skip (by decide), lookup_skip (by decide), lookup_skip (by decide),
        lookup_skip (by decide), lookup_skip (by decide), hsc]
      exact lookup_hit _
  · rw [h3]
    constructor
    · intro hmem
      rcases List.mem_append.mp hmem with hmem2 | hat
      · rcases List.mem_append.mp hmem2 with hcf | hfl
        · exact absurd (mem_checkFindings hcf) (tooShortMsg_ne_findings key _ mw)
        · rw [List.mem_flatten] at hfl
          obtain ⟨l, hl, hml⟩ := hfl
          rw [List.mem_map] at hl
          obtain ⟨kk, hkk, rfl⟩ := hl
          by_cases hkeq : kk = key
          · rw [hkeq, hse] at hml
            by_cases hlt : count_words ((sections.lookup key).getD ("")) < mw
            · exact hlt
            · rw [if_neg hlt] at hml
              simp at hml
          · rcases mem_sectionErrors hml with hm | ⟨ww, hm⟩
            · exact absurd hm (tooShortMsg_ne_missing key kk _ mw)
            · exact absurd hm
                (tooShortMsg_ne_of_key_ne hk hkk (fun he => hkeq he.symm) _ ww mw mw)
      · obtain ⟨ids, hm⟩ := mem_attackErrors hat
        exact absurd hm (tooShortMsg_ne_attack key _ mw ids)
    · intro hlt
      apply List.mem_append.mpr
      left
      apply List.mem_append.mpr
      right
      rw [List.mem_flatten]
      refine ⟨sectionErrors sections key mw, List.mem_map.mpr ⟨key, hk, rfl⟩, ?_⟩
      rw [hse, if_pos hlt]
      simp

/-- C4 witness at a concrete input: a present, non-blank `background` body of
two words, once with minimum 80 (the too-short error is in the error list)
and once with minimum 2 (it is not). -/
theorem section_count_recorded_witness :
    ((("background") ∈ requiredKeys
      ∧ isBlankStr ((List.lookup ("background")
          [(("background"), ("alpha beta"))]).getD ("")) = false)
    ∧ ((List.lookup (pyTitle ("background"))
          (validate_cta [(("background"), ("alpha beta"))] ("") 80 false).2.2 =
        some (count_words ((List.lookup ("background")
          [(("background"), ("alpha beta"))]).getD ("")))) ∧
      (sectionErrors [(("background"), ("alpha beta"))] ("background") 80 =
        (if count_words ((List.lookup ("background")
            [(("background"), ("alpha beta"))]).getD ("")) < 80 then
          [tooShortMsg ("background")
            (count_words ((List.lookup ("background")
              [(("background"), ("alpha beta"))]).getD (""))) 80]
        else [])) ∧
      ((validate_cta [(("background"), ("alpha beta"))] ("") 80 false).2.1 =
        checkFindings [(("background"), ("alpha beta"))] ++
          (requiredKeys.map (fun k =>
            sectionErrors [(("background"), ("alpha beta"))] k 80)).flatten ++
          attackErrors [(("background"), ("alpha beta"))] ("") false) ∧
      (tooShortMsg ("background")
          (count_words ((List.lookup ("background")
            [(("background"), ("alpha beta"))]).getD (""))) 80 ∈
          (validate_cta [(("background"), ("alpha beta"))] ("") 80 false).2.1 ↔
        count_words ((List.lookup ("background")
          [(("background"), ("alpha beta"))]).getD ("")) < 80)))
    ∧ ((List.lookup (pyTitle ("background"))
          (validate_cta [(("background"), ("alpha beta"))] ("") 2 false).2.2 =
        some (count_words ((List.lookup ("background")
          [(("background"), ("alpha beta"))]).getD ("")))) ∧
      (sectionErrors [(("background"), ("alpha beta"))] ("background") 2 =
        (if count_words ((List.lookup ("background")
            [(("background"), ("alpha beta"))]).getD ("")) < 2 then
          [tooShortMsg ("background")
            (count_words ((List.lookup ("background")
              [(("background"), ("alpha beta"))]).getD (""))) 2]
        else [])) ∧
      ((validate_cta [(("background"), ("alpha beta"))] ("") 2 false).2.1 =
        checkFindings [(("background"), ("alpha beta"))] ++
          (requiredKeys.map (fun k =>
            sectionErrors [(("background"), ("alpha beta"))] k 2)).flatten ++
          attackErrors [(("background"), ("alpha beta"))] ("") false) ∧
      (tooShortMsg ("background")
          (count_words ((List.lookup ("background")
            [(("background"), ("alpha beta"))]).getD (""))) 2 ∈
          (validate_cta [(("background"), ("alpha beta"))] ("") 2 false).2.1 ↔
        count_words ((List.lookup ("background")
          [(("background"), ("alpha beta"))]).getD ("")) < 2)) :=
  ⟨⟨⟨by decide, by decide⟩,
    section_count_recorded_and_too_short_iff
      [(("background"), ("alpha beta"))] ("") 80 false ("background")
      (by decide) (by decide)⟩,
    section_count_recorded_and_too_short_iff
      [(("background"), ("alpha beta"))] ("") 2 false ("background")
      (by decide) (by decide)⟩

/-! ## Blank sections are invisible (machinery for C10)

Removing an all-whitespace value from the joined document cannot change the
identifier set: whitespace contributes no word characters, and the `"\n"`
separators already break runs. -/

theorem isWS_not_word {c : Char} (h : isWS c = true) : isWordChar c = false := by
  simp only [isWS, Bool.or_eq_true, decide_eq_true_eq] at h
  rcases h with ((((rfl | rfl) | rfl) | rfl) | rfl) | rfl <;> decide

theorem runs_nonP_prefix (p : Char → Bool) :
    ∀ (S Y : List Char), (∀ c ∈ S, p c = false) →
      maximalRuns p (S ++ Y) = maximalRuns p Y := by
  intro S
  induction S with
  | nil => intro Y h; simp
  | cons c S ih =>
    intro Y h
    rw [List.cons_append, maximalRuns_cons,
      if_neg (by simp [h c (List.mem_cons_self c S)])]
    exact ih Y (fun d hd => h d (List.mem_cons_of_mem c hd))

theorem runs_nonP (p : Char → Bool) (S : List Char) (h : ∀ c ∈ S, p c = false) :
    maximalRuns p S = [] := by
  have := runs_nonP_prefix p S [] h
  simpa using this

theorem takeWhile_append_nonP (p : Char → Bool) (z : Char) (hz : p z = false) :
    ∀ (X Zr : List Char),
      (X ++ z :: Zr).takeWhile p = X.takeWhile p ∧
      (X ++ z :: Zr).dropWhile p = X.dropWhile p ++ z :: Zr := by
  intro X
  induction X with
  | nil =>
    intro Zr
    simp [List.takeWhile_cons, List.dropWhile_cons, hz]
  | cons c X ih =>
    intro Zr
    rw [List.cons_append, List.takeWhile_cons, List.takeWhile_cons,
      List.dropWhile_cons, List.dropWhile_cons]
    cases h : p c with
    | true => simp [(ih Zr).1, (ih Zr).2]
    | false => simp

/-- Splitting maximal runs at a nonempty separator of non-`p` characters. -/
theorem runs_append_sep (p : Char → Bool) (z : Char) (hz : p z = false) :
    ∀ (n : Nat) (X : List Char), X.length ≤ n → ∀ (Sr Y : List Char),
      (∀ c ∈ Sr, p c = false) →
      maximalRuns p (X ++ (z :: Sr) ++ Y) = maximalRuns p X ++ maximalRuns p Y := by
  intro n
  induction n with
  | zero =>
    intro X hX Sr Y hSr
    have : X = [] := List.length_eq_zero.mp (Nat.le_zero.mp hX)
    subst this
    simp only [List.nil_append, maximalRuns_nil]
    refine runs_nonP_prefix p (z :: Sr) Y ?_
    intro c hc
    rcases List.mem_cons.mp hc with rfl | hc
    · exact hz
    · exact hSr c hc
  | succ n ih =>
    intro X hX Sr Y hSr
    match X with
    | [] =>
      simp only [List.nil_append, maximalRuns_nil]
      refine runs_nonP_prefix p (z :: Sr) Y ?_
      intro c hc
      rcases List.mem_cons.mp hc with rfl | hc
      · exact hz
      · exact hSr c hc
    | c :: X =>
      have hX2 : X.length ≤ n := by
        simp only [List.length_cons] at hX
        omega
      rw [List.cons_append, List.cons_append, maximalRuns_cons, maximalRuns_cons]
      cases h : p c with
      | false =>
        rw [if_neg (by simp), if_neg (by simp)]
        exact ih X hX2 Sr Y hSr
      | true =>
        rw [if_pos rfl, if_pos rfl]
        have hform : (X ++ z :: Sr) ++ Y = X ++ z :: (Sr ++ Y) := by
          simp [List.append_assoc]
        rw [hform]
        obtain ⟨htw, hdw⟩ := takeWhile_append_nonP p z hz X (Sr ++ Y)
        rw [htw, hdw]
        have hform2 : X.dropWhile p ++ z :: (Sr ++ Y) =
            (X.dropWhile p ++ z :: Sr) ++ Y := by
          simp [List.append_assoc]
        rw [hform2, ih (X.dropWhile p)
          (le_trans (length_dropWhile_le p X) hX2) Sr Y hSr]
        rw [List.cons_append]

theorem pyJoin_cons_ne (sep x : String) {xs : List String} (h : xs ≠ []) :
    pyJoin sep (x :: xs) = x ++ sep ++ pyJoin sep xs := by
  cases xs with
  | nil => exact absurd rfl h
  | cons y ys => rfl

theorem data_sep_append (x J : String) :
    (x ++ ("\n") ++ J).data = x.data ++ ('\n' :: []) ++ J.data := by
  rw [String.data_append, String.data_append]

theorem runs_pyJoin_blank (b : String) (hb : ∀ c ∈ b.data, isWS c = true) :
    ∀ (v2 : List String),
      maximalRuns isWordChar (pyJoin ("\n") (b :: v2)).data =
        maximalRuns isWordChar (pyJoin ("\n") v2).data := by
  intro v2
  have hbw : ∀ c ∈ b.data, isWordChar c = false :=
    fun c hc => isWS_not_word (hb c hc)
  cases v2 with
  | nil =>
    show maximalRuns isWordChar b.data = maximalRuns isWordChar ("").data
    rw [runs_nonP isWordChar b.data hbw]
    have hd : ("" : String).data = [] := rfl
    rw [hd, maximalRuns_nil]
  | cons y ys =>
    rw [pyJoin_cons_ne ("\n") b (by simp), data_sep_append, List.append_assoc]
    refine ( runs_nonP_prefix isWordChar b.data _ hbw).trans ?_
    refine runs_nonP_prefix isWordChar ('\n' :: []) _ ?_
    intro c hc
    rcases List.mem_cons.mp hc with rfl | hc
    · decide
    · cases hc

theorem runs_pyJoin_insert_blank (b : String) (hb : ∀ c ∈ b.data, isWS c = true) :
    ∀ (v1 v2 : List String),
      maximalRuns isWordChar (pyJoin ("\n") (v1 ++ b :: v2)).data =
        maximalRuns isWordChar (pyJoin ("\n") (v1 ++ v2)).data := by
  intro v1
  induction v1 with
  | nil => intro v2; exact runs_pyJoin_blank b hb v2
  | cons x v1 ih =>
    intro v2
    have hL : pyJoin ("\n") (x :: (v1 ++ b :: v2)) =
        x ++ ("\n") ++ pyJoin ("\n") (v1 ++ b :: v2) := by
      refine pyJoin_cons_ne ("\n") x ?_
      intro hcon
      rcases List.append_eq_nil.mp hcon with ⟨h1, h2⟩
      cases h2
    show maximalRuns isWordChar (pyJoin ("\n") (x :: (v1 ++ b :: v2))).data =
      maximalRuns isWordChar (pyJoin ("\n") (x :: (v1 ++ v2))).data
    by_cases hnil : v1 ++ v2 = []
    case pos =>
      obtain ⟨h1, h2⟩ := List.append_eq_nil.mp hnil
      subst h1
      subst h2
      rw [hL, data_sep_append]
      rw [runs_append_sep isWordChar '\n' (by decide) x.data.length x.data
        (Nat.le_refl _) [] ((pyJoin ("\n") ([] ++ b :: [])).data)
        (by intro c hc; cases hc)]
      show maximalRuns isWordChar x.data ++ maximalRuns isWordChar b.data =
        maximalRuns isWordChar (pyJoin ("\n") (x :: [])).data
      rw [runs_nonP isWordChar b.data (fun c hc => isWS_not_word (hb c hc))]
      simp only [List.append_nil]
      rfl
    case neg =>
      have hR : pyJoin ("\n") (x :: (v1 ++ v2)) =
          x ++ ("\n") ++ pyJoin ("\n") (v1 ++ v2) :=
        pyJoin_cons_ne ("\n") x hnil
      rw [hL, hR, data_sep_append, data_sep_append]
      rw [runs_append_sep isWordChar '\n' (by decide) x.data.length x.data
        (Nat.le_refl _) [] ((pyJoin ("\n") (v1 ++ b :: v2)).data)
        (by intro c hc; cases hc)]
      rw [runs_append_sep isWordChar '\n' (by decide) x.data.length x.data
        (Nat.le_refl _) [] ((pyJoin ("\n") (v1 ++ v2)).data)
        (by intro c hc; cases hc)]
      rw [ih v2]

/-- Removing an all-whitespace value from the joined section bodies leaves
the extracted identifier set unchanged. -/
theorem extract_insert_blank (b : String) (hb : ∀ c ∈ b.data, isWS c = true)
    (v1 v2 : List String) :
    extract_attack_ids (pyJoin ("\n") (v1 ++ b :: v2)) =
      extract_attack_ids (pyJoin ("\n") (v1 ++ v2)) := by
  unfold extract_attack_ids
  rw [tidScan_false_eq, tidScan_false_eq, runs_pyJoin_insert_blank b hb]

theorem blank_all_ws {s : String} (h : isBlankStr s = true) :
    ∀ c ∈ s.data, isWS c = true := by
  have hnil : stripChars s.data = [] := by
    simpa [isBlankStr, List.isEmpty_iff] using h
  unfold stripChars at hnil
  rw [List.reverse_eq_nil_iff, List.dropWhile_eq_nil_iff] at hnil
  have hdrop : ∀ c ∈ (s.data.dropWhile isWS), isWS c = true := by
    intro c hc
    exact hnil c (List.mem_reverse.mpr hc)
  intro c hc
  rw [← List.takeWhile_append_dropWhile isWS s.data] at hc
  rcases List.mem_append.mp hc with hc | hc
  · exact List.mem_takeWhile_imp hc
  · exact hdrop c hc

/-! ### Association-list lemmas for removing a key -/

theorem lookup_filter_self : ∀ (l : List (String × String)) (key : String),
    List.lookup key (l.filter (fun p => !(p.1 == key))) = none := by
  intro l key
  induction l with
  | nil => rfl
  | cons a rest ih =>
    rw [List.filter_cons]
    cases h : a.1 == key with
    | true => simpa [h] using ih
    | false =>
      rw [if_pos (by simp [h])]
      have hke : (key == a.1) = false := by
        rcases Bool.eq_false_iff.mp h with _
        refine Bool.eq_false_iff.mpr ?_
        intro hcon
        have := eq_of_beq hcon
        subst this
        simp at h
      rw [List.lookup, hke]
      exact ih

theorem lookup_filter_ne {key k : String} (hk : (k == key) = false) :
    ∀ (l : List (String × String)),
      List.lookup k (l.filter (fun p => !(p.1 == key))) = List.lookup k l := by
  intro l
  induction l with
  | nil => rfl
  | cons a rest ih =>
    rw [List.filter_cons]
    cases h : a.1 == key with
    | true =>
      have ha : a.1 = key := eq_of_beq h
      have hka : (k == a.1) = false := by
        rw [ha]
        exact hk
      rw [if_neg (by simp [h])]
      have : List.lookup k (a :: rest) = List.lookup k rest := by
        rcases a with ⟨a1, a2⟩
        rw [List.lookup]
        simp only at hka
        rw [hka]
      rw [this]
      exact ih
    | false =>
      rw [if_pos (by simp [h])]
      rcases a with ⟨a1, a2⟩
      rw [List.lookup, List.lookup]
      cases hka : k == a1 with
      | true => rfl
      | false => exact ih

theorem values_filter_split :
    ∀ (l : List (String × String)) (key body : String),
      (l.map Prod.fst).Nodup → l.lookup key = some body →
      ∃ v1 v2, l.map Prod.snd = v1 ++ body :: v2 ∧
        (l.filter (fun p => !(p.1 == key))).map Prod.snd = v1 ++ v2 := by
  intro l
  induction l with
  | nil => intro key body _ hl; cases hl
  | cons a rest ih =>
    intro key body hnd hl
    rcases a with ⟨a1, a2⟩
    rw [List.map_cons] at hnd
    have hnd2 := (List.nodup_cons.mp hnd).2
    have hnotin := (List.nodup_cons.mp hnd).1
    rw [List.lookup] at hl
    cases hkb : key == a1 with
    | true =>
      rw [hkb] at hl
      have ha : key = a1 := eq_of_beq hkb
      have hbody : a2 = body := by
        simpa using hl
      refine ⟨[], rest.map Prod.snd, by simp [hbody], ?_⟩
      rw [List.filter_cons, if_neg (by simp [ha])]
      have hnotin2 : a1 ∉ rest.map Prod.fst := hnotin
      have hrest : rest.filter (fun p => !(p.1 == key)) = rest := by
        refine List.filter_eq_self.mpr ?_
        intro p hp
        simp only [Bool.not_eq_eq_eq_not, Bool.not_true, Bool.not_false]
        refine Bool.eq_false_iff.mpr ?_
        intro hcon
        have hpk : p.1 = key := eq_of_beq hcon
        have hmem : p.1 ∈ rest.map Prod.fst := List.mem_map_of_mem Prod.fst hp
        rw [hpk, ha] at hmem
        exact hnotin2 hmem
      rw [hrest]
      simp
    | false =>
      rw [hkb] at hl
      obtain ⟨v1, v2, hv, hv2⟩ := ih key body hnd2 hl
      refine ⟨a2 :: v1, v2, by simp [hv], ?_⟩
      rw [List.filter_cons, if_pos ?side]
      case side =>
        simp only [Bool.not_eq_eq_eq_not, Bool.not_false]
        refine Bool.eq_false_iff.mpr ?_
        intro hcon
        have := eq_of_beq hcon
        subst this
        simp at hkb
      rw [List.map_cons, hv2]
      simp

theorem lookup_appendixCounts_ne {sections : List (String × String)} {t : String}
    (h : (t == ("Appendix" : String)) = false) :
    List.lookup t (appendixCounts sections) = none := by
  simp only [appendixCounts]
  split_ifs <;> simp [List.lookup, h]


/-- C5: with the identifier check enabled, the validator appends - after all
other errors - exactly one identifier-propagation error if and only if the
idea text contains at least one technique identifier and none of them occurs
among the identifiers extracted from the concatenated section bodies; in
particular, when the idea contains no identifiers the check appends nothing. -/
theorem identifier_propagation_iff (sections : List (String × String))
    (idea : String) (mw : Nat) :
    (validate_cta sections idea mw true).2.1 =
      checkFindings sections ++
        (requiredKeys.map (fun k => sectionErrors sections k mw)).flatten ++
        (if extract_attack_ids idea ≠ [] ∧
            (∀ t ∈ extract_attack_ids idea,
              t ∉ extract_attack_ids
                (pyJoin ("\n") (sections.map Prod.snd))) then
          [attackMsg (extract_attack_ids idea)]
        else []) := by
  rw [validate_cta_decomp]
  unfold attackErrors
  simp only [if_pos rfl]
  by_cases hii : extract_attack_ids idea = []
  · simp [hii]
  · by_cases hfound : ∀ t ∈ extract_attack_ids idea,
        t ∉ extract_attack_ids (pyJoin ("\n") (sections.map Prod.snd))
    · have hcond : extract_attack_ids idea ≠ [] ∧
          ∀ t ∈ extract_attack_ids idea,
            t ∉ extract_attack_ids
              (pyJoin ("\n") (sections.map Prod.snd)) := ⟨hii, hfound⟩
      rw [if_pos hcond]
      have hne : (extract_attack_ids idea).isEmpty = false := by
        cases h : extract_attack_ids idea with
        | nil => exact absurd h hii
        | cons x xs => rfl
      have hany : ((extract_attack_ids idea).any (fun i =>
          (extract_attack_ids (pyJoin ("\n")
            (sections.map Prod.snd))).contains i)) = false := by
        rw [← Bool.not_eq_true, List.any_eq_true]
        rintro ⟨x, hx, hcont⟩
        exact hfound x hx (List.elem_iff.mp hcont)
      rw [hne, Bool.not_false, if_pos rfl, hany, Bool.not_false]
      simp
    · have hncond : ¬ (extract_attack_ids idea ≠ [] ∧
          ∀ t ∈ extract_attack_ids idea,
            t ∉ extract_attack_ids
              (pyJoin ("\n") (sections.map Prod.snd))) :=
        fun h => hfound h.2
      rw [if_neg hncond]
      push_neg at hfound
      obtain ⟨t, ht, htf⟩ := hfound
      have hany : ((extract_attack_ids idea).any (fun i =>
          (extract_attack_ids (pyJoin ("\n")
            (sections.map Prod.snd))).contains i)) = true := by
        rw [List.any_eq_true]
        exact ⟨t, ht, List.elem_iff.mpr htf⟩
      have hne : (extract_attack_ids idea).isEmpty = false := by
        cases h : extract_attack_ids idea with
        | nil => exact absurd h hii
        | cons x xs => rfl
      rw [hne, hany]
      simp

/-- C10: a required section whose mapped body is empty or whitespace-only is
reported with the missing-required-section error (not a too-short one), no
word count is recorded for it, and the whole validation result is the one the
validator produces when the key is absent from the mapping - a blank section
is indistinguishable from an absent one. -/
theorem blank_section_indistinguishable_from_absent
    (sections : List (String × String)) (idea : String) (mw : Nat) (req : Bool)
    (key body : String)
    (hnd : (sections.map Prod.fst).Nodup)
    (hk : key ∈ requiredKeys)
    (hl : sections.lookup key = some body)
    (hb : isBlankStr body = true) :
    validate_cta sections idea mw req =
      validate_cta (sections.filter (fun p => !(p.1 == key))) idea mw req ∧
    sectionErrors sections key mw = [missingMsg key] ∧
    List.lookup (pyTitle key) (validate_cta sections idea mw req).2.2 = none := by
  have hbody : (sections.lookup key).getD ("") = body := by rw [hl]; rfl
  have hse_key : sectionErrors sections key mw = [missingMsg key] := by
    simp only [sectionErrors, hbody]
    rw [if_pos (by simp [hb])]
  have hsc_key : sectionCounts sections key = [] := by
    simp only [sectionCounts, hbody]
    rw [if_pos (by simp [hb])]
  have hkeyfacts : ((("findings") : String) == key) = false ∧
      ((("suspicious activity hits") : String) == key) = false ∧
      ((("appendix") : String) == key) = false := by
    have hk2 := hk
    simp only [requiredKeys, List.mem_cons, List.not_mem_nil, or_false] at hk2
    rcases hk2 with rfl | rfl | rfl | rfl | rfl | rfl <;>
      exact ⟨by decide, by decide, by decide⟩
  refine ⟨?_, hse_key, ?_⟩
  · rw [validate_cta_decomp, validate_cta_decomp]
    have hcf : checkFindings (sections.filter (fun p => !(p.1 == key))) =
        checkFindings sections := by
      unfold checkFindings
      rw [lookup_filter_ne hkeyfacts.1 sections, lookup_filter_ne hkeyfacts.2.1 sections]
    have happx : appendixCounts (sections.filter (fun p => !(p.1 == key))) =
        appendixCounts sections := by
      simp only [appendixCounts]
      rw [lookup_filter_ne hkeyfacts.2.2 sections]
    have hsecE : ∀ k2 ∈ requiredKeys,
        sectionErrors (sections.filter (fun p => !(p.1 == key))) k2 mw =
          sectionErrors sections k2 mw := by
      intro k2 _
      by_cases hkk : k2 = key
      · subst hkk
        rw [sectionErrors_absent (lookup_filter_self sections k2) mw, hse_key]
      · have hne : (k2 == key) = false := by
          refine Bool.eq_false_iff.mpr ?_
          intro hcon
          exact hkk (eq_of_beq hcon)
        simp only [sectionErrors]
        rw [lookup_filter_ne hne sections]
    have hsecC : ∀ k2 ∈ requiredKeys,
        sectionCounts (sections.filter (fun p => !(p.1 == key))) k2 =
          sectionCounts sections k2 := by
      intro k2 _
      by_cases hkk : k2 = key
      · subst hkk
        rw [sectionCounts_absent (lookup_filter_self sections k2), hsc_key]
      · have hne : (k2 == key) = false := by
          refine Bool.eq_false_iff.mpr ?_
          intro hcon
          exact hkk (eq_of_beq hcon)
        simp only [sectionCounts]
        rw [lookup_filter_ne hne sections]
    have hatk : attackErrors (sections.filter (fun p => !(p.1 == key))) idea req =
        attackErrors sections idea req := by
      obtain ⟨v1, v2, hv, hv2⟩ := values_filter_split sections key body hnd hl
      unfold attackErrors
      rw [hv, hv2, extract_insert_blank body (blank_all_ws hb) v1 v2]
    rw [hcf, happx, hatk,
      List.map_eq_map_iff.mpr hsecE, List.map_eq_map_iff.mpr hsecC]
  · rw [validate_cta_decomp]
    dsimp only
    simp only [requiredKeys, List.map_cons, List.map_nil, List.flatten_cons,
      List.flatten_nil, List.append_nil, List.append_assoc]
    have hk2 := hk
    simp only [requiredKeys, List.mem_cons, List.not_mem_nil, or_false] at hk2
    rcases hk2 with rfl | rfl | rfl | rfl | rfl | rfl <;>
      (rw [hsc_key]
       simp only [List.nil_append]
       rw [lookup_skip (by decide), lookup_skip (by decide), lookup_skip (by decide),
         lookup_skip (by decide), lookup_skip (by decide)]
       exact lookup_appendixCounts_ne (by decide))

/-- C10 witness at a concrete input: a whitespace-only `background` next to a
real `analysis` section. -/
theorem blank_section_witness :
    ((([(("background"), ("  ")), (("analysis"), ("alpha"))]).map Prod.fst).Nodup ∧
      ("background") ∈ requiredKeys ∧
      List.lookup ("background")
        [(("background"), ("  ")), (("analysis"), ("alpha"))] = some ("  ") ∧
      isBlankStr ("  ") = true) ∧
    (validate_cta [(("background"), ("  ")), (("analysis"), ("alpha"))] ("") 80 true =
        validate_cta ([(("background"), ("  ")), (("analysis"), ("alpha"))].filter
          (fun p => !(p.1 == ("background")))) ("") 80 true ∧
      sectionErrors [(("background"), ("  ")), (("analysis"), ("alpha"))]
          ("background") 80 = [missingMsg ("background")] ∧
      List.lookup (pyTitle ("background"))
        (validate_cta [(("background"), ("  ")), (("analysis"), ("alpha"))]
          ("") 80 true).2.2 = none) :=
  ⟨⟨by decide, by decide, by decide, by decide⟩,
    blank_section_indistinguishable_from_absent
      [(("background"), ("  ")), (("analysis"), ("alpha"))] ("") 80 true
      ("background") ("  ")
      (by decide) (by decide) (by decide) (by decide)⟩


/-! ## Skeleton Synthesizer (C6)

Modelled from the spec: no Skeleton Synthesizer implementation exists under
`src/` - spec section 4.6 is the only description (append, for each
strictly-missing canonical section name, a new minimal section using that
canonical name as a heading plus a single fixed-format placeholder sentence
that names the idea text, added once, in the order given, separated by blank
lines; never removing or reordering existing content; only run when the
caller invokes it). The definitions below follow those words. -/

/-- Concatenation of a list of strings, in order. -/
def strConcat : List String → String
  | [] => ""
  | s :: rest => s ++ strConcat rest

/-- Modelled from the spec: the block appended for one missing canonical
section - a blank-line separator, the canonical name as a heading, and a
single fixed-format placeholder sentence naming the idea text. -/
def skeletonBlock (idea name : String) : String :=
  "\n\n## " ++ name ++ ("\n\nTODO: expand this section for the hunt idea: " ++ idea)

/-- Modelled from the spec: `synthesize_skeleton doc idea missing` appends one
skeleton block per missing canonical name, in the given order, to the
original document. -/
def synthesize_skeleton (doc idea : String) (missing : List String) : String :=
  doc ++ strConcat (missing.map (skeletonBlock idea))

theorem strConcat_data : ∀ (l : List String),
    (strConcat l).data = (l.map String.data).flatten := by
  intro l
  induction l with
  | nil => rfl
  | cons s rest ih =>
    show (s ++ strConcat rest).data = _
    rw [String.data_append, ih]
    rfl

/-- C6: the repaired document is the original content byte-for-byte
unchanged, followed by exactly one appended section per given missing name,
in the given order, each consisting of a blank-line separator, a heading
bearing that canonical name, and a fixed-format placeholder sentence
referencing the supplied idea text; with no missing names the document is
returned unchanged (the step only runs when the caller invokes it). -/
theorem synthesize_skeleton_appends_only (doc idea : String)
    (missing : List String) :
    (synthesize_skeleton doc idea missing).data =
      doc.data ++ (missing.map (fun n => (skeletonBlock idea n).data)).flatten ∧
    (∀ n : String, (skeletonBlock idea n).data =
      ("\n\n## ").data ++ n.data ++
        (("\n\nTODO: expand this section for the hunt idea: ").data ++ idea.data)) ∧
    synthesize_skeleton doc idea [] = doc := by
  refine ⟨?_, ?_, ?_⟩
  · unfold synthesize_skeleton
    rw [String.data_append, strConcat_data, List.map_map]
    rfl
  · intro n
    unfold skeletonBlock
    simp [String.data_append, List.append_assoc]
  · have hdata : (synthesize_skeleton doc idea []).data = doc.data := by
      unfold synthesize_skeleton strConcat
      rw [String.data_append]
      simp
    exact String.ext hdata


/-! ## `find_headings` (C7)

Source (main_ai_studio.py:75-78):
```
RE_HEADING = re.compile(r"^\s{0,3}#{1,6}\s+(.+?)\s*$", re.MULTILINE)

def find_headings(md: str) -> List[Tuple[str, int]]:
    return [(m.group(1).strip(), m.start()) for m in RE_HEADING.finditer(md)]
```
The regex is compiled by hand with Python backtracking semantics:

* `^` (MULTILINE) holds at offset 0 and right after every newline, so
  `finditer` only attempts matches at those positions;
* `\s{0,3}` is greedy: it takes `min(run, 3)` whitespace characters; giving
  characters back can never help since `#` is not whitespace, so the attempt
  succeeds only if the whole leading whitespace run has length at most 3 and
  is followed by `#` - hence the `takeWhile`/`dropWhile` formulation;
* `#{1,6}` likewise: giving back a `#` leaves a `#` where `\s` is required;
* `\s+` is greedy with backtracking (`plusMatch` tries the full run first,
  then shorter ones);
* `(.+?)` is lazy (`tailMatch` extends the group one character at a time; `.`
  never matches a newline);
* `\s*$` is greedy with backtracking (`searchEnd` tries the largest number of
  whitespace characters first); `$` (MULTILINE) holds at end of input and
  before every newline;
* `finditer` resumes scanning at `m.end()`, and `m.start()`/offsets count
  code points.
-/

/-- MULTILINE `$`: end of input or a newline next. -/
def dollarAt : List Char → Bool
  | [] => true
  | c :: _ => c = '\n'

/-- Greedy `\s*$` against bound `v`: the largest `w ≤ v` such that `$` holds
after dropping `w` characters, if any. -/
def searchEnd : Nat → List Char → Option Nat
  | 0, u => if dollarAt u then some 0 else none
  | v+1, u => if dollarAt (u.drop (v+1)) then some (v+1) else searchEnd v u

/-- `\s*$` after the group: the bound is the whitespace run. -/
def tryEnd (u : List Char) : Option Nat :=
  searchEnd ((u.takeWhile isWS).length) u

/-- Lazy `(.+?)` followed by `\s*$`: the shortest nonempty newline-free group
after which `\s*$` can close the match; returns the group and the number of
characters consumed. -/
def tailMatch : List Char → Option (List Char × Nat)
  | [] => none
  | c :: rest =>
    if c = '\n' then none
    else
      match tryEnd rest with
      | some v => some ([c], 1 + v)
      | none =>
        match tailMatch rest with
        | some (g, n) => some (c :: g, 1 + n)
        | none => none

/-- Greedy `\s+` with backtracking: try `a = w, w-1, ..., 1` whitespace
characters before handing over to the lazy group. -/
def plusMatch : Nat → List Char → Option (List Char × Nat)
  | 0, _ => none
  | a+1, l2 =>
    match tailMatch (l2.drop (a+1)) with
    | some (g, n) => some (g, (a+1) + n)
    | none => plusMatch a l2

/-- The whole regex `^\s{0,3}#{1,6}\s+(.+?)\s*$` attempted at an anchored
position: returns the group and the total number of characters the match
consumes. -/
def matchAt (l : List Char) : Option (List Char × Nat) :=
  let lead := l.takeWhile isWS
  if 3 < lead.length then none
  else
    let l1 := l.dropWhile isWS
    let hs := l1.takeWhile (fun c => c = '#')
    if hs.length = 0 || 6 < hs.length then none
    else
      let l2 := l1.dropWhile (fun c => c = '#')
      match plusMatch ((l2.takeWhile isWS).length) l2 with
      | some (g, n) => some (g, lead.length + hs.length + n)
      | none => none

/-- `finditer` over the anchored positions: attempt a match at every position
where MULTILINE `^` holds, emit `(group.strip(), start)`, and resume at
`m.end()`; elsewhere advance one character.  The fuel argument only makes the
recursion structural; it is always called with at least the input length. -/
def scanHeads : Nat → List Char → Nat → Bool → List (String × Nat)
  | 0, _, _, _ => []
  | _+1, [], _, _ => []
  | fuel+1, c :: rest, off, anchor =>
    if anchor then
      match matchAt (c :: rest) with
      | some (g, n) =>
        (String.mk (stripChars g), off) ::
          scanHeads fuel ((c :: rest).drop n) (off + n)
            (((c :: rest).take n).getLast? == some '\n')
      | none => scanHeads fuel rest (off + 1) (c = '\n')
    else scanHeads fuel rest (off + 1) (c = '\n')

/-- Embedding of `find_headings` (main_ai_studio.py:77-78). -/
def find_headings (md : String) : List (String × Nat) :=
  scanHeads md.data.length md.data 0 true

/-- Split a character list into its lines at newline characters (the list of
lines a reader of the claim would enumerate; `splitLines l` always has one
more entry than `l` has newlines). -/
def splitLines : List Char → List (List Char)
  | [] => [[]]
  | c :: rest =>
    match splitLines rest with
    | [] => [[c]]
    | L :: ls => if c = '\n' then [] :: L :: ls else (c :: L) :: ls

/-- Join newline-free lines back into a document, separating consecutive
lines with a single newline. -/
def joinLines : List (List Char) → List Char
  | [] => []
  | [L] => L
  | L :: rest => L ++ '\n' :: joinLines rest

/-- Claim-side check, read literally: the line begins with 0-3 leading
space characters followed by a `#`. -/
def lineBeginsSpacesHash (L : List Char) : Bool :=
  ((L.takeWhile (fun c => c = ' ')).length ≤ 3)
    && ((L.dropWhile (fun c => c = ' ')).take 1 = ['#'])

/-- Claim-side heading text of a line, read literally: 0-3 leading spaces,
1-6 `#` characters, at least one space, then the heading text with trailing
whitespace stripped (the empty heading text is allowed, which only makes the
reading more permissive). -/
def claimHeadingTextOf (L : List Char) : Option String :=
  let lead := L.takeWhile (fun c => c = ' ')
  if 3 < lead.length then none
  else
    let l1 := L.dropWhile (fun c => c = ' ')
    let hs := l1.takeWhile (fun c => c = '#')
    if hs.length = 0 || 6 < hs.length then none
    else
      let l2 := l1.dropWhile (fun c => c = '#')
      if (l2.takeWhile (fun c => c = ' ')).length = 0 then none
      else some (String.mk (stripChars (l2.dropWhile (fun c => c = ' '))))

/-- A heading line in the sense the code actually implements, but stated per
line: 0-3 leading whitespace characters, 1-6 `#` characters, at least one
whitespace character, then at least one non-whitespace character. -/
def CleanHeadingLine (L : List Char) : Bool :=
  ((L.takeWhile isWS).length ≤ 3)
    && (let l1 := L.dropWhile isWS
        let hs := l1.takeWhile (fun c => c = '#')
        (1 ≤ hs.length) && (hs.length ≤ 6)
          && (let l2 := l1.dropWhile (fun c => c = '#')
              (1 ≤ (l2.takeWhile isWS).length)
                && !(l2.dropWhile isWS).isEmpty))

/-- A degenerate hash line: 0-3 leading whitespace characters and 1-6 `#`
characters followed by whitespace only.  The regex matches such a line (with
an empty or out-of-line group), so these lines are excluded from the
per-line reading. -/
def DegenerateHashLine (L : List Char) : Bool :=
  ((L.takeWhile isWS).length ≤ 3)
    && (let l1 := L.dropWhile isWS
        let hs := l1.takeWhile (fun c => c = '#')
        (1 ≤ hs.length) && (hs.length ≤ 6)
          && ((l1.dropWhile (fun c => c = '#')).dropWhile isWS).isEmpty)

/-- The heading text of a clean heading line: everything after the `#` run
with surrounding whitespace stripped. -/
def headingTextOf (L : List Char) : Option String :=
  if CleanHeadingLine L then
    some (String.mk (stripChars ((L.dropWhile isWS).dropWhile (fun c => c = '#'))))
  else none

/-- Counterexample to C7 as stated.  First conjunct: on `"\t# A"` the scanner
emits a pair although no line begins with 0-3 leading spaces followed by a
`#` (the regex class `\s` also accepts a tab).  Second conjunct: on
`"# \nx"` the scanner emits the pair `("x", 0)`, although no line of the
input has claim-side heading text `"x"` (the `\s+` of the regex crosses the
newline out of the degenerate line `"# "` and captures the next line). -/
theorem find_headings_not_per_line :
    (find_headings ("\t# A") = [(("A"), 0)]
      ∧ (splitLines ("\t# A").data).all (fun L => !(lineBeginsSpacesHash L)) = true)
    ∧ (find_headings ("# \nx") = [(("x"), 0)]
      ∧ (splitLines ("# \nx").data).all
          (fun L => !(claimHeadingTextOf L == some ("x"))) = true) := by
  decide

theorem tw_append_all {p : Char → Bool} : ∀ {A : List Char},
    (∀ c ∈ A, p c = true) → ∀ (B : List Char),
    (A ++ B).takeWhile p = A ++ B.takeWhile p := by
  intro A
  induction A with
  | nil => intro _ B; simp
  | cons a A ih =>
      intro h B
      have ha : p a = true := h a (by simp)
      simp only [List.cons_append, List.takeWhile_cons, ha, if_true]
      rw [ih (fun c hc => h c (by simp [hc])) B]

theorem dw_append_all {p : Char → Bool} : ∀ {A : List Char},
    (∀ c ∈ A, p c = true) → ∀ (B : List Char),
    (A ++ B).dropWhile p = B.dropWhile p := by
  intro A
  induction A with
  | nil => intro _ B; simp
  | cons a A ih =>
      intro h B
      have ha : p a = true := h a (by simp)
      simp only [List.cons_append, List.dropWhile_cons, ha, if_true]
      exact ih (fun c hc => h c (by simp [hc])) B

theorem tw_cons_neg {p : Char → Bool} {c : Char} (h : p c = false)
    (B : List Char) : (c :: B).takeWhile p = [] := by
  simp [List.takeWhile_cons, h]

theorem dw_cons_neg {p : Char → Bool} {c : Char} (h : p c = false)
    (B : List Char) : (c :: B).dropWhile p = c :: B := by
  simp [List.dropWhile_cons, h]

theorem dropWhile_head_false {p : Char → Bool} : ∀ {l : List Char} {c : Char},
    (l.dropWhile p).head? = some c → p c = false := by
  intro l
  induction l with
  | nil => intro c h; simp at h
  | cons a l ih =>
      intro c h
      by_cases hp : p a = true
      · rw [List.dropWhile_cons, if_pos hp] at h
        exact ih h
      · rw [List.dropWhile_cons, if_neg hp] at h
        simp at h
        rw [← h]
        exact Bool.eq_false_iff.mpr hp

/-- A list whose first non-`p` element exists, viewed as `takeWhile ++
dropWhile`, keeps that split under appending. -/
theorem tw_dw_append_stop {p : Char → Bool} : ∀ {A : List Char},
    A.dropWhile p ≠ [] → ∀ (B : List Char),
    (A ++ B).takeWhile p = A.takeWhile p
      ∧ (A ++ B).dropWhile p = A.dropWhile p ++ B := by
  intro A
  induction A with
  | nil => intro h; exact absurd rfl h
  | cons a A ih =>
      intro h B
      by_cases hp : p a = true
      · rw [List.dropWhile_cons, if_pos hp] at h
        have := ih h B
        constructor
        · simp only [List.cons_append, List.takeWhile_cons, hp, if_true]
          rw [this.1]
        · simp only [List.cons_append, List.dropWhile_cons, hp, if_true]
          rw [this.2]
      · have hp' : p a = false := Bool.eq_false_iff.mpr hp
        constructor
        · rw [List.cons_append, tw_cons_neg hp', tw_cons_neg hp']
        · rw [List.cons_append, dw_cons_neg hp', dw_cons_neg hp', List.cons_append]

theorem drop_append_len (A : List Char) (k : Nat) (B : List Char) :
    (A ++ B).drop (A.length + k) = B.drop k := by
  rw [← List.drop_drop, List.drop_left]

theorem drop_len_takeWhile {p : Char → Bool} : ∀ (l : List Char),
    l.drop (l.takeWhile p).length = l.dropWhile p := by
  intro l
  induction l with
  | nil => rfl
  | cons a l ih =>
      by_cases hp : p a = true
      · rw [List.takeWhile_cons, if_pos hp, List.dropWhile_cons, if_pos hp]
        simpa using ih
      · have hp' : p a = false := Bool.eq_false_iff.mpr hp
        rw [tw_cons_neg hp', dw_cons_neg hp']
        rfl

theorem searchEnd_le : ∀ {v : Nat} {u : List Char} {w : Nat},
    searchEnd v u = some w → w ≤ v := by
  intro v
  induction v with
  | zero =>
      intro u w h
      by_cases hd : dollarAt u = true
      · rw [searchEnd, if_pos hd] at h
        exact Nat.le_of_eq (Option.some.inj h).symm
      · rw [searchEnd, if_neg hd] at h
        exact absurd h (by simp)
  | succ v ih =>
      intro u w h
      by_cases hd : dollarAt (u.drop (v+1)) = true
      · rw [searchEnd, if_pos hd] at h
        exact Nat.le_of_eq (Option.some.inj h).symm
      · rw [searchEnd, if_neg hd] at h
        exact Nat.le_succ_of_le (ih h)

theorem searchEnd_dollar : ∀ {v : Nat} {u : List Char} {w : Nat},
    searchEnd v u = some w → dollarAt (u.drop w) = true := by
  intro v
  induction v with
  | zero =>
      intro u w h
      by_cases hd : dollarAt u = true
      · rw [searchEnd, if_pos hd] at h
        rw [← Option.some.inj h]
        simpa using hd
      · rw [searchEnd, if_neg hd] at h
        exact absurd h (by simp)
  | succ v ih =>
      intro u w h
      by_cases hd : dollarAt (u.drop (v+1)) = true
      · rw [searchEnd, if_pos hd] at h
        rw [← Option.some.inj h]
        exact hd
      · rw [searchEnd, if_neg hd] at h
        exact ih h

theorem searchEnd_of : ∀ (v : Nat) (u : List Char) (w : Nat),
    w ≤ v → dollarAt (u.drop w) = true →
    (∀ x, w < x → x ≤ v → dollarAt (u.drop x) = false) →
    searchEnd v u = some w := by
  intro v
  induction v with
  | zero =>
      intro u w hle hd _
      have hw : w = 0 := Nat.le_zero.mp hle
      subst hw
      rw [searchEnd, if_pos (by simpa using hd)]
  | succ v ih =>
      intro u w hle hd hmax
      by_cases hw : w = v + 1
      · subst hw
        rw [searchEnd, if_pos hd]
      · have hle' : w ≤ v := Nat.lt_succ_iff.mp (Nat.lt_of_le_of_ne hle hw)
        have hfail : dollarAt (u.drop (v+1)) = false :=
          hmax (v+1) (Nat.lt_succ_of_le hle') (Nat.le_refl _)
        rw [searchEnd, if_neg (by simp [hfail])]
        exact ih u w hle' hd (fun x hx1 hx2 => hmax x hx1 (Nat.le_succ_of_le hx2))

theorem searchEnd_none_of : ∀ (v : Nat) (u : List Char),
    (∀ x, x ≤ v → dollarAt (u.drop x) = false) →
    searchEnd v u = none := by
  intro v
  induction v with
  | zero =>
      intro u h
      have := h 0 (Nat.le_refl 0)
      rw [searchEnd, if_neg (by simp at this ⊢; simpa using this)]
  | succ v ih =>
      intro u h
      have h1 := h (v+1) (Nat.le_refl _)
      rw [searchEnd, if_neg (by simp [h1])]
      exact ih u (fun x hx => h x (Nat.le_succ_of_le hx))

theorem takeWhile_eq_self_of_all {p : Char → Bool} {u : List Char}
    (h : ∀ c ∈ u, p c = true) : u.takeWhile p = u := by
  have := tw_append_all h ([] : List Char)
  simpa using this

/-- On an all-whitespace tail, greedy `\s*$` consumes everything and the
dollar fires at end of input. -/
theorem tryEnd_allws {u : List Char} (h : ∀ c ∈ u, isWS c = true) :
    tryEnd u = some u.length := by
  rw [tryEnd, takeWhile_eq_self_of_all h]
  apply searchEnd_of
  · exact Nat.le_refl _
  · rw [List.drop_length]; rfl
  · intro x hx1 hx2
    exact absurd (Nat.lt_of_lt_of_le hx1 hx2) (Nat.lt_irrefl _)

/-- Within a newline-free block `W₀` followed by a non-newline character,
the MULTILINE dollar fails at every position up to and including the
boundary. -/
theorem dollar_fail_all {R : List Char} {r : Char}
    (hR : R.head? = some r) (hr : r ≠ '\n') : ∀ (W₀ : List Char),
    (∀ c ∈ W₀, c ≠ '\n') → ∀ x, x ≤ W₀.length →
    dollarAt ((W₀ ++ R).drop x) = false := by
  intro W₀
  induction W₀ with
  | nil =>
      intro _ x hx
      have hx0 : x = 0 := Nat.le_zero.mp hx
      subst hx0
      cases R with
      | nil => simp at hR
      | cons a R' =>
          simp at hR
          rw [← hR] at hr
          simp only [List.nil_append, List.drop_zero, dollarAt]
          simpa using hr
  | cons w W' ih =>
      intro hW x hx
      cases x with
      | zero =>
          have hw : w ≠ '\n' := hW w (by simp)
          simp only [List.drop_zero, List.cons_append, dollarAt]
          simpa using hw
      | succ x' =>
          have hstep : ((w :: W') ++ R).drop (x' + 1) = (W' ++ R).drop x' := rfl
          rw [hstep]
          exact ih (fun c hc => hW c (by simp [hc])) x' (Nat.succ_le_succ_iff.mp hx)

/-- `\s*$` fails when the leading whitespace run is newline-free and a
non-whitespace character follows it. -/
theorem tryEnd_fail {z : List Char}
    (hnl : ∀ c ∈ z.takeWhile isWS, c ≠ '\n')
    (hne : z.dropWhile isWS ≠ []) : tryEnd z = none := by
  rw [tryEnd]
  apply searchEnd_none_of
  intro x hx
  obtain ⟨r, hr⟩ : ∃ r, (z.dropWhile isWS).head? = some r := by
    cases hd : (z.dropWhile isWS) with
    | nil => exact absurd hd hne
    | cons a l => exact ⟨a, by simp⟩
  have hrws : isWS r = false := dropWhile_head_false hr
  have hrnl : r ≠ '\n' := by
    intro h
    rw [h] at hrws
    simp [isWS] at hrws
  have hz : z = z.takeWhile isWS ++ z.dropWhile isWS :=
    (List.takeWhile_append_dropWhile isWS z).symm
  have key := dollar_fail_all hr hrnl (z.takeWhile isWS) hnl x hx
  rw [List.takeWhile_append_dropWhile] at key
  exact key

/-- The lazy group plus greedy `\s*$`: when the candidate group `TT` is
nonempty, newline-free, and ends in a non-whitespace character, and `\s*$`
succeeds right after it, `tailMatch` returns exactly `TT` and consumes it
together with the `\s*` run. -/
theorem tailMatch_spec : ∀ {TT : List Char}, TT ≠ [] →
    (∀ c ∈ TT, c ≠ '\n') →
    (∀ d, TT.getLast? = some d → isWS d = false) →
    ∀ {u₀ : List Char} {vend : Nat}, tryEnd u₀ = some vend →
    tailMatch (TT ++ u₀) = some (TT, TT.length + vend) := by
  intro TT
  induction TT with
  | nil => intro h; exact absurd rfl h
  | cons c TT' ih =>
      intro _ hnl hlast u₀ vend htry
      have hc : c ≠ '\n' := hnl c (by simp)
      cases hTT' : TT' with
      | nil =>
          subst hTT'
          rw [List.cons_append, List.nil_append, tailMatch.eq_def]
          simp only [if_neg (by simpa using hc)]
          rw [htry]
          simp
      | cons d TT'' =>
          rw [← hTT']
          have hTTne : TT' ≠ [] := by rw [hTT']; simp
          have hlast' : ∀ e, TT'.getLast? = some e → isWS e = false := by
            intro e he
            apply hlast
            rw [hTT'] at he ⊢
            rw [List.getLast?_cons_cons]
            exact he
          obtain ⟨dl, hdl⟩ : ∃ dl, TT'.getLast? = some dl :=
            ⟨TT'.getLast hTTne, List.getLast?_eq_getLast TT' hTTne⟩
          have hdlws : isWS dl = false := hlast' dl hdl
          have hdlmem : dl ∈ TT' := by
            have := List.getLast?_eq_getLast TT' hTTne
            rw [this] at hdl
            have : TT'.getLast hTTne = dl := Option.some.inj hdl
            rw [← this]
            exact List.getLast_mem hTTne
          have hdwne : TT'.dropWhile isWS ≠ [] := by
            intro hdw
            have := List.dropWhile_eq_nil_iff.mp hdw dl hdlmem
            rw [this] at hdlws
            exact absurd hdlws (by simp)
          have hsplit := tw_dw_append_stop hdwne u₀
          have htfail : tryEnd (TT' ++ u₀) = none := by
            apply tryEnd_fail
            · intro e he
              rw [hsplit.1] at he
              exact hnl e (by
                have := ( List.takeWhile_prefix isWS).subset he
                simp [this])
            · rw [hsplit.2]
              intro habs
              exact hdwne (List.append_eq_nil.mp habs).1
          have hih := ih hTTne (fun e he => hnl e (by simp [he])) hlast' htry
          rw [List.cons_append, tailMatch.eq_def]
          simp only [if_neg (by simpa using hc), htfail, hih]
          simp only [Option.some.injEq, Prod.mk.injEq, List.length_cons]
          exact ⟨by trivial, by omega⟩

/-- Greedy `\s+` hands the full whitespace run to the lazy group when the
group succeeds there. -/
theorem plusMatch_spec {l2 : List Char} {g : List Char} {m : Nat}
    (hw : 1 ≤ (l2.takeWhile isWS).length)
    (ht : tailMatch (l2.dropWhile isWS) = some (g, m)) :
    plusMatch ((l2.takeWhile isWS).length) l2
      = some (g, (l2.takeWhile isWS).length + m) := by
  obtain ⟨w', hw'⟩ : ∃ w', (l2.takeWhile isWS).length = w' + 1 := by
    cases hlen : (l2.takeWhile isWS).length with
    | zero => rw [hlen] at hw; exact absurd hw (by simp)
    | succ n => exact ⟨n, rfl⟩
  rw [hw', plusMatch]
  rw [← hw', drop_len_takeWhile, ht]

theorem ws_ne_hash {c : Char} (h : isWS c = true) :
    (decide (c = '#')) = false := by
  simp only [isWS, Bool.or_eq_true, decide_eq_true_eq] at h
  rcases h with ((((rfl | rfl) | rfl) | rfl) | rfl) | rfl <;> decide

theorem hash_not_ws : isWS ('#') = false := by decide

theorem tw_append_cons_neg {p : Char → Bool} {c : Char} (h : p c = false)
    (A B : List Char) : ((c :: A) ++ B).takeWhile p = [] := by
  rw [List.cons_append]
  exact tw_cons_neg h _

theorem dw_append_cons_neg {p : Char → Bool} {c : Char} (h : p c = false)
    (A B : List Char) : ((c :: A) ++ B).dropWhile p = (c :: A) ++ B := by
  rw [List.cons_append, dw_cons_neg h]

/-- The whole regex succeeds on an anchored position whose text decomposes
as up to three whitespace characters, one to six hashes, whitespace, a
trimmed nonempty group, and a tail on which `\s*$` succeeds; it returns the
group and consumes everything up to where the dollar fired. -/
theorem matchAt_compute {lead H S1 TT u₀ : List Char} {vend : Nat}
    (hlead : ∀ c ∈ lead, isWS c = true) (hlead3 : lead.length ≤ 3)
    (hH : ∀ c ∈ H, c = '#') (hH1 : 1 ≤ H.length) (hH6 : H.length ≤ 6)
    (hS1 : ∀ c ∈ S1, isWS c = true) (hS11 : 1 ≤ S1.length)
    (hTTne : TT ≠ []) (hTTnl : ∀ c ∈ TT, c ≠ '\n')
    (hTThead : ∀ c, TT.head? = some c → isWS c = false)
    (hTTlast : ∀ d, TT.getLast? = some d → isWS d = false)
    (htry : tryEnd u₀ = some vend) :
    matchAt (lead ++ (H ++ (S1 ++ (TT ++ u₀))))
      = some (TT, lead.length + H.length + (S1.length + (TT.length + vend))) := by
  obtain ⟨h0, H', rfl⟩ : ∃ h0 H', H = h0 :: H' := by
    cases H with
    | nil => simp at hH1
    | cons a b => exact ⟨a, b, rfl⟩
  have hh0 : h0 = '#' := hH h0 (by simp)
  subst hh0
  obtain ⟨s0, S1', rfl⟩ : ∃ s0 S1', S1 = s0 :: S1' := by
    cases S1 with
    | nil => simp at hS11
    | cons a b => exact ⟨a, b, rfl⟩
  have hs0 : isWS s0 = true := hS1 s0 (by simp)
  obtain ⟨t0, TT2, rfl⟩ : ∃ t0 TT2, TT = t0 :: TT2 := by
    cases TT with
    | nil => exact absurd rfl hTTne
    | cons a b => exact ⟨a, b, rfl⟩
  have ht0 : isWS t0 = false := hTThead t0 (by simp)
  have step1 : (lead ++ (('#' :: H') ++ ((s0 :: S1') ++ ((t0 :: TT2) ++ u₀)))).takeWhile isWS
      = lead := by
    rw [tw_append_all hlead, tw_append_cons_neg hash_not_ws, List.append_nil]
  have step2 : (lead ++ (('#' :: H') ++ ((s0 :: S1') ++ ((t0 :: TT2) ++ u₀)))).dropWhile isWS
      = ('#' :: H') ++ ((s0 :: S1') ++ ((t0 :: TT2) ++ u₀)) := by
    rw [dw_append_all hlead, dw_append_cons_neg hash_not_ws]
  have hallH : ∀ c ∈ ('#' :: H'), (fun c => decide (c = '#')) c = true := by
    intro c hc
    simp [hH c hc]
  have step3 : (('#' :: H') ++ ((s0 :: S1') ++ ((t0 :: TT2) ++ u₀))).takeWhile
      (fun c => decide (c = '#')) = '#' :: H' := by
    rw [tw_append_all hallH, tw_append_cons_neg (ws_ne_hash hs0), List.append_nil]
  have step4 : (('#' :: H') ++ ((s0 :: S1') ++ ((t0 :: TT2) ++ u₀))).dropWhile
      (fun c => decide (c = '#')) = (s0 :: S1') ++ ((t0 :: TT2) ++ u₀) := by
    rw [dw_append_all hallH, dw_append_cons_neg (ws_ne_hash hs0)]
  have step5 : ((s0 :: S1') ++ ((t0 :: TT2) ++ u₀)).takeWhile isWS = s0 :: S1' := by
    rw [tw_append_all hS1, tw_append_cons_neg ht0, List.append_nil]
  have step6 : ((s0 :: S1') ++ ((t0 :: TT2) ++ u₀)).dropWhile isWS
      = (t0 :: TT2) ++ u₀ := by
    rw [dw_append_all hS1, dw_append_cons_neg ht0]
  have step7 : tailMatch ((t0 :: TT2) ++ u₀)
      = some (t0 :: TT2, (t0 :: TT2).length + vend) :=
    tailMatch_spec hTTne hTTnl hTTlast htry
  have step8 : plusMatch ((s0 :: S1').length) ((s0 :: S1') ++ ((t0 :: TT2) ++ u₀))
      = some (t0 :: TT2, (s0 :: S1').length + ((t0 :: TT2).length + vend)) := by
    have hp := @plusMatch_spec ((s0 :: S1') ++ ((t0 :: TT2) ++ u₀))
      (t0 :: TT2) ((t0 :: TT2).length + vend)
      (by rw [step5]; simp) (by rw [step6]; exact step7)
    rw [step5] at hp
    exact hp
  simp only [matchAt]
  rw [step1, step2, step3, step4, step5, step8]
  rw [if_neg (by omega)]
  rw [if_neg (by
    simp only [Bool.or_eq_true, decide_eq_true_eq]
    push_neg
    refine ⟨by simp, ?_⟩
    simpa using hH6)]

/-- A successful regex match consumes at least one character. -/
theorem matchAt_pos {l : List Char} {g : List Char} {n : Nat}
    (h : matchAt l = some (g, n)) : 1 ≤ n := by
  simp only [matchAt] at h
  by_cases h1 : 3 < (l.takeWhile isWS).length
  · rw [if_pos h1] at h
    exact absurd h (by simp)
  · rw [if_neg h1] at h
    by_cases h2 : ((((l.dropWhile isWS).takeWhile fun c => decide (c = '#')).length = 0)
        ∨ (6 < ((l.dropWhile isWS).takeWhile fun c => decide (c = '#')).length))
    · rw [if_pos (by simpa using h2)] at h
      exact absurd h (by simp)
    · rw [if_neg (by simpa using h2)] at h
      push_neg at h2
      cases hp : plusMatch ((((l.dropWhile isWS).dropWhile fun c => decide (c = '#')).takeWhile isWS).length)
          ((l.dropWhile isWS).dropWhile fun c => decide (c = '#')) with
      | none =>
          rw [hp] at h
          exact absurd h (by simp)
      | some gn =>
          rw [hp] at h
          obtain ⟨g2, n2⟩ := gn
          simp only [Option.some.injEq, Prod.mk.injEq] at h
          have hn := h.2
          omega

/-- On all-whitespace text the regex never matches: there is no `#`. -/
theorem matchAt_allws {u : List Char} (h : ∀ c ∈ u, isWS c = true) :
    matchAt u = none := by
  simp only [matchAt]
  by_cases h1 : 3 < (u.takeWhile isWS).length
  · rw [if_pos h1]
  · rw [if_neg h1]
    have hdw : u.dropWhile isWS = [] := List.dropWhile_eq_nil_iff.mpr h
    rw [if_pos (by rw [hdw]; simp)]

theorem joinLines_nil : joinLines [] = [] := rfl

theorem joinLines_one (L : List Char) : joinLines [L] = L := rfl

theorem joinLines_cons_cons (L M : List Char) (LS : List (List Char)) :
    joinLines (L :: M :: LS) = L ++ '\n' :: joinLines (M :: LS) := rfl

theorem joinLines_cons_ne (L : List Char) {LS : List (List Char)}
    (h : LS ≠ []) : joinLines (L :: LS) = L ++ '\n' :: joinLines LS := by
  cases LS with
  | nil => exact absurd rfl h
  | cons M LS' => rfl

theorem joinLines_cons_rest (L : List Char) (LS : List (List Char)) :
    ∃ rest, joinLines (L :: LS) = L ++ rest := by
  cases LS with
  | nil => exact ⟨[], by simp [joinLines_one]⟩
  | cons M LS' => exact ⟨'\n' :: joinLines (M :: LS'), rfl⟩

theorem joinLines_all_ws {LS : List (List Char)}
    (h : ∀ L ∈ LS, ∀ c ∈ L, isWS c = true) :
    ∀ c ∈ joinLines LS, isWS c = true := by
  induction LS with
  | nil => intro c hc; simp [joinLines_nil] at hc
  | cons X LS' ih =>
      cases LS' with
      | nil =>
          intro c hc
          rw [joinLines_one] at hc
          exact h X (by simp) c hc
      | cons Y LS'' =>
          intro c hc
          rw [joinLines_cons_cons] at hc
          rw [List.mem_append] at hc
          rcases hc with hc | hc
          · exact h X (by simp) c hc
          · rw [List.mem_cons] at hc
            rcases hc with rfl | hc
            · decide
            · exact ih (fun L hL => h L (by simp [hL])) c hc

/-- Where the greedy `\s*$` lands when the text after the group is the rest
of the current line, a newline, and the remaining lines: either every
remaining line is blank and the match swallows the entire rest of the input,
or it stops at the newline just before the first non-blank remaining line
(swallowing any blank lines in between). -/
theorem end_spec : ∀ (LS2 : List (List Char)) (TR : List Char),
    (∀ c ∈ TR, isWS c = true) →
    (∀ L ∈ LS2, ∀ c ∈ L, c ≠ '\n') →
    (tryEnd (TR ++ '\n' :: joinLines LS2)
        = some ((TR ++ '\n' :: joinLines LS2).length)
      ∧ (∀ L ∈ LS2, ∀ c ∈ L, isWS c = true))
    ∨ (∃ Bd L' LS4, LS2 = Bd ++ L' :: LS4
        ∧ (∀ X ∈ Bd, ∀ c ∈ X, isWS c = true)
        ∧ ¬ (∀ c ∈ L', isWS c = true)
        ∧ ∃ vend, tryEnd (TR ++ '\n' :: joinLines LS2) = some vend
            ∧ (TR ++ '\n' :: joinLines LS2).drop vend
                = '\n' :: joinLines (L' :: LS4)) := by
  intro LS2
  induction LS2 with
  | nil =>
      intro TR hTR _
      left
      constructor
      · apply tryEnd_allws
        intro c hc
        rw [joinLines_nil] at hc
        rcases List.mem_append.mp hc with hc | hc
        · exact hTR c hc
        · rw [List.mem_singleton] at hc
          subst hc
          decide
      · intro L hL
        simp at hL
  | cons X LS3 ih =>
      intro TR hTR hnl
      by_cases hXb : ∀ c ∈ X, isWS c = true
      · cases LS3 with
        | nil =>
            left
            constructor
            · apply tryEnd_allws
              intro c hc
              rw [joinLines_one] at hc
              rcases List.mem_append.mp hc with hc | hc
              · exact hTR c hc
              · rw [List.mem_cons] at hc
                rcases hc with rfl | hc
                · decide
                · exact hXb c hc
            · intro L hL
              rw [List.mem_singleton] at hL
              subst hL
              exact hXb
        | cons Y LS4' =>
            have heq : TR ++ '\n' :: joinLines (X :: Y :: LS4')
                = (TR ++ '\n' :: X) ++ '\n' :: joinLines (Y :: LS4') := by
              rw [joinLines_cons_cons]
              simp
            have hTR' : ∀ c ∈ TR ++ '\n' :: X, isWS c = true := by
              intro c hc
              rcases List.mem_append.mp hc with hc | hc
              · exact hTR c hc
              · rw [List.mem_cons] at hc
                rcases hc with rfl | hc
                · decide
                · exact hXb c hc
            have hnl' : ∀ L ∈ Y :: LS4', ∀ c ∈ L, c ≠ '\n' := by
              intro L hL
              exact hnl L (by simp [hL])
            rcases ih (TR ++ '\n' :: X) hTR' hnl' with ⟨h1, h2⟩ |
              ⟨Bd, Lp, LS4, hsplit, hBd, hLp, vend, htry, hdrop⟩
            · left
              constructor
              · rw [heq]
                exact h1
              · intro L hL
                rw [List.mem_cons] at hL
                rcases hL with rfl | hL
                · exact hXb
                · exact h2 L hL
            · right
              refine ⟨X :: Bd, Lp, LS4, by rw [hsplit]; rfl, ?_, hLp, vend, ?_, ?_⟩
              · intro Z hZ
                rw [List.mem_cons] at hZ
                rcases hZ with rfl | hZ
                · exact hXb
                · exact hBd Z hZ
              · rw [heq]
                exact htry
              · rw [heq]
                exact hdrop
      · right
        refine ⟨[], X, LS3, by simp, by simp, hXb, TR.length, ?_, ?_⟩
        · -- `\s*$` stops exactly before the newline that precedes `X`.
          obtain ⟨rest, hrest⟩ := joinLines_cons_rest X LS3
          have hdwne : X.dropWhile isWS ≠ [] := by
            intro hdw
            exact hXb (List.dropWhile_eq_nil_iff.mp hdw)
          obtain ⟨r, hr⟩ : ∃ r, (X.dropWhile isWS).head? = some r := by
            cases hd : X.dropWhile isWS with
            | nil => exact absurd hd hdwne
            | cons a l => exact ⟨a, by simp⟩
          have hrws : isWS r = false := dropWhile_head_false hr
          have hrnl : r ≠ '\n' := by
            intro hcontra
            rw [hcontra] at hrws
            simp [isWS] at hrws
          have hVsplit : joinLines (X :: LS3)
              = X.takeWhile isWS ++ (X.dropWhile isWS ++ rest) := by
            rw [hrest, ← List.append_assoc, List.takeWhile_append_dropWhile]
          have hRhead : (X.dropWhile isWS ++ rest).head? = some r := by
            rw [List.head?_append_of_ne_nil _ hdwne]
            exact hr
          have htwnl : ∀ c ∈ X.takeWhile isWS, c ≠ '\n' := by
            intro c hc
            exact hnl X (by simp) c (( List.takeWhile_prefix isWS).subset hc)
          have htw : (TR ++ '\n' :: joinLines (X :: LS3)).takeWhile isWS
              = TR ++ '\n' :: (X.takeWhile isWS) := by
            rw [tw_append_all hTR, List.takeWhile_cons,
                if_pos (by decide : isWS ('\n') = true), hrest,
                (tw_dw_append_stop hdwne rest).1]
          have hdrop0 : (TR ++ '\n' :: joinLines (X :: LS3)).drop TR.length
              = '\n' :: joinLines (X :: LS3) := by
            simp
          rw [tryEnd, htw]
          apply searchEnd_of
          · simp only [List.length_append, List.length_cons]
            omega
          · rw [hdrop0]
            rfl
          · intro x hx1 hx2
            simp only [List.length_append, List.length_cons] at hx2
            obtain ⟨k, hk1, hk2⟩ : ∃ k, x = TR.length + (k + 1)
                ∧ k ≤ (X.takeWhile isWS).length := ⟨x - TR.length - 1, by omega, by omega⟩
            rw [hk1, drop_append_len, List.drop_succ_cons]
            rw [hVsplit]
            exact dollar_fail_all hRhead hrnl (X.takeWhile isWS) htwnl k hk2
        · simp
theorem clean_iff (L : List Char) :
    CleanHeadingLine L = true ↔
      (L.takeWhile isWS).length ≤ 3
      ∧ 1 ≤ ((L.dropWhile isWS).takeWhile (fun c => decide (c = '#'))).length
      ∧ ((L.dropWhile isWS).takeWhile (fun c => decide (c = '#'))).length ≤ 6
      ∧ 1 ≤ (((L.dropWhile isWS).dropWhile (fun c => decide (c = '#'))).takeWhile isWS).length
      ∧ ((L.dropWhile isWS).dropWhile (fun c => decide (c = '#'))).dropWhile isWS ≠ [] := by
  simp only [CleanHeadingLine, Bool.and_eq_true, decide_eq_true_eq, Bool.not_eq_true',
    List.isEmpty_eq_false, and_assoc]

theorem degenerate_iff (L : List Char) :
    DegenerateHashLine L = true ↔
      (L.takeWhile isWS).length ≤ 3
      ∧ 1 ≤ ((L.dropWhile isWS).takeWhile (fun c => decide (c = '#'))).length
      ∧ ((L.dropWhile isWS).takeWhile (fun c => decide (c = '#'))).length ≤ 6
      ∧ ((L.dropWhile isWS).dropWhile (fun c => decide (c = '#'))).dropWhile isWS = [] := by
  simp only [DegenerateHashLine, Bool.and_eq_true, decide_eq_true_eq,
    List.isEmpty_iff, and_assoc]

/-- Decomposition of a clean heading line into leading whitespace, the hash
run, the separating whitespace, the trimmed heading text and the trailing
whitespace, together with the side conditions the matcher needs. -/
theorem clean_anatomy {L : List Char} (hC : CleanHeadingLine L = true)
    (hnl : ∀ c ∈ L, c ≠ '\n') :
    ∃ lead H S1 TT TR,
      L = lead ++ (H ++ (S1 ++ (TT ++ TR)))
      ∧ lead = L.takeWhile isWS
      ∧ (∀ c ∈ lead, isWS c = true) ∧ lead.length ≤ 3
      ∧ (∀ c ∈ H, c = '#') ∧ 1 ≤ H.length ∧ H.length ≤ 6
      ∧ (∀ c ∈ S1, isWS c = true) ∧ 1 ≤ S1.length
      ∧ TT ≠ [] ∧ (∀ c ∈ TT, c ≠ '\n')
      ∧ (∀ c, TT.head? = some c → isWS c = false)
      ∧ (∀ d, TT.getLast? = some d → isWS d = false)
      ∧ (∀ c ∈ TR, isWS c = true)
      ∧ stripChars ((L.dropWhile isWS).dropWhile (fun c => decide (c = '#'))) = TT
      ∧ stripChars TT = TT := by
  obtain ⟨h3, hh1, hh6, hs11, htne⟩ := (clean_iff L).mp hC
  obtain ⟨l1, hl1⟩ : ∃ x, x = L.dropWhile isWS := ⟨_, rfl⟩
  rw [← hl1] at hh1 hh6 hs11 htne
  obtain ⟨H, hHd⟩ : ∃ x, x = l1.takeWhile (fun c => decide (c = '#')) := ⟨_, rfl⟩
  rw [← hHd] at hh1 hh6
  obtain ⟨l2, hl2⟩ : ∃ x, x = l1.dropWhile (fun c => decide (c = '#')) := ⟨_, rfl⟩
  rw [← hl2] at hs11 htne
  obtain ⟨S1, hS1d⟩ : ∃ x, x = l2.takeWhile isWS := ⟨_, rfl⟩
  rw [← hS1d] at hs11
  obtain ⟨T, hTd⟩ : ∃ x, x = l2.dropWhile isWS := ⟨_, rfl⟩
  rw [← hTd] at htne
  obtain ⟨TT, hTTd⟩ : ∃ x, x = (T.reverse.dropWhile isWS).reverse := ⟨_, rfl⟩
  obtain ⟨TR, hTRd⟩ : ∃ x, x = (T.reverse.takeWhile isWS).reverse := ⟨_, rfl⟩
  have hTsplit : TT ++ TR = T := by
    rw [hTTd, hTRd, ← List.reverse_append, List.takeWhile_append_dropWhile,
      List.reverse_reverse]
  obtain ⟨t0, T', hT0⟩ : ∃ t0 T', T = t0 :: T' := by
    cases hT : T with
    | nil => exact absurd hT htne
    | cons a b => exact ⟨a, b, rfl⟩
  have ht0head : T.head? = some t0 := by rw [hT0]; rfl
  have ht0ws : isWS t0 = false := by
    apply @dropWhile_head_false isWS l2 t0
    rw [← hTd]
    exact ht0head
  have ht0mem : t0 ∈ T := by rw [hT0]; simp
  have hTTne : TT ≠ [] := by
    intro habs
    rw [habs] at hTsplit
    have hrev : T.reverse.dropWhile isWS = [] := by
      have : TT = [] := habs
      rw [this] at hTTd
      have := congrArg List.reverse hTTd
      simpa using this.symm
    have hallws := List.dropWhile_eq_nil_iff.mp hrev
    have := hallws t0 (List.mem_reverse.mpr ht0mem)
    rw [ht0ws] at this
    exact absurd this (by simp)
  have hTmem_L : ∀ c ∈ T, c ∈ L := by
    intro c hc
    have h1 : c ∈ l2 := by
      rw [hTd] at hc
      exact (List.dropWhile_suffix isWS).subset hc
    have h2 : c ∈ l1 := by
      rw [hl2] at h1
      exact (List.dropWhile_suffix _).subset h1
    rw [hl1] at h2
    exact (List.dropWhile_suffix isWS).subset h2
  refine ⟨L.takeWhile isWS, H, S1, TT, TR, ?_, rfl, ?_, h3, ?_, hh1, hh6, ?_, hs11,
    hTTne, ?_, ?_, ?_, ?_, ?_, ?_⟩
  · have h0 : S1 ++ (TT ++ TR) = l2 := by
      rw [hTsplit, hS1d, hTd, List.takeWhile_append_dropWhile]
    have h1 : H ++ (S1 ++ (TT ++ TR)) = l1 := by
      rw [h0, hHd, hl2, List.takeWhile_append_dropWhile]
    rw [h1, hl1, List.takeWhile_append_dropWhile]
  · intro c hc
    exact List.mem_takeWhile_imp hc
  · intro c hc
    rw [hHd] at hc
    simpa using List.mem_takeWhile_imp hc
  · intro c hc
    rw [hS1d] at hc
    exact List.mem_takeWhile_imp hc
  · intro c hc
    apply hnl
    apply hTmem_L
    rw [← hTsplit]
    exact List.mem_append.mpr (Or.inl hc)
  · intro c hc
    have hhead : T.head? = some c := by
      rw [← hTsplit, List.head?_append_of_ne_nil _ hTTne]
      exact hc
    rw [ht0head] at hhead
    rw [← Option.some.inj hhead]
    exact ht0ws
  · intro d hd
    rw [List.getLast?_eq_head?_reverse] at hd
    have hTTrev : TT.reverse = T.reverse.dropWhile isWS := by
      rw [hTTd, List.reverse_reverse]
    rw [hTTrev] at hd
    exact dropWhile_head_false hd
  · intro c hc
    rw [hTRd] at hc
    rw [List.mem_reverse] at hc
    exact List.mem_takeWhile_imp hc
  · rw [stripChars, ← hl1, ← hl2, ← hTd, ← hTTd]
  · obtain ⟨tt0, TT', hTT0⟩ : ∃ a b, TT = a :: b := by
      cases hTT : TT with
      | nil => exact absurd hTT hTTne
      | cons a b => exact ⟨a, b, rfl⟩
    have htt0 : isWS tt0 = false := by
      apply @dropWhile_head_false isWS l2 tt0
      rw [← hTd, ← hTsplit, List.head?_append_of_ne_nil _ hTTne, hTT0]
      rfl
    obtain ⟨d, hdlast⟩ : ∃ d, TT.getLast? = some d := by
      rw [hTT0]
      exact ⟨(tt0 :: TT').getLast (by simp), List.getLast?_eq_getLast _ _⟩
    have hdws : isWS d = false := by
      rw [List.getLast?_eq_head?_reverse] at hdlast
      have hTTrev : TT.reverse = T.reverse.dropWhile isWS := by
        rw [hTTd, List.reverse_reverse]
      rw [hTTrev] at hdlast
      exact dropWhile_head_false hdlast
    rw [stripChars]
    rw [hTT0, dw_cons_neg htt0, ← hTT0]
    obtain ⟨r0, R', hR0⟩ : ∃ a b, TT.reverse = a :: b := by
      cases hR : TT.reverse with
      | nil =>
          exfalso
          have := congrArg List.reverse hR
          rw [List.reverse_reverse] at this
          exact hTTne (by simpa using this)
      | cons a b => exact ⟨a, b, rfl⟩
    have hr0 : isWS r0 = false := by
      rw [List.getLast?_eq_head?_reverse, hR0] at hdlast
      have : r0 = d := by simpa using hdlast
      rw [this]
      exact hdws
    rw [hR0, dw_cons_neg hr0, ← hR0, List.reverse_reverse]

theorem drop_concat4 (A B C D E : List Char) (k : Nat) :
    (A ++ (B ++ (C ++ (D ++ E)))).drop (A.length + B.length + (C.length + (D.length + k)))
      = E.drop k := by
  have h1 : A.length + B.length + (C.length + (D.length + k))
      = A.length + (B.length + (C.length + (D.length + k))) := by omega
  rw [h1, drop_append_len, drop_append_len, drop_append_len, drop_append_len]

/-- On an anchored position consisting of whitespace followed by a clean
heading line and further newline-free lines, the regex matches; the group
strips to the line-side heading text, and the scan resumes on a whitespace
prefix followed by the lines after the last blank line the match swallowed. -/
theorem matchAt_line_some {W L : List Char} {LS2 : List (List Char)}
    (hW : ∀ c ∈ W, isWS c = true)
    (hC : CleanHeadingLine L = true)
    (hnlL : ∀ c ∈ L, c ≠ '\n')
    (hnl2 : ∀ X ∈ LS2, ∀ c ∈ X, c ≠ '\n')
    (hlen : W.length + (L.takeWhile isWS).length ≤ 3) :
    ∃ g n, matchAt (W ++ joinLines (L :: LS2)) = some (g, n)
      ∧ headingTextOf L = some (String.mk (stripChars g))
      ∧ ∃ W2 LS3 Bd, (W ++ joinLines (L :: LS2)).drop n = W2 ++ joinLines LS3
          ∧ ((W2 = [] ∧ LS3 = []) ∨ W2 = ['\n'])
          ∧ LS2 = Bd ++ LS3
          ∧ (∀ X ∈ Bd, ∀ c ∈ X, isWS c = true) := by
  obtain ⟨lead, H, S1, TT, TR, hsplit, hleadeq, hlead, hlead3, hH, hH1, hH6, hS1, hS11,
    hTTne, hTTnl, hTThead, hTTlast, hTR, hstrip, hstripTT⟩ := clean_anatomy hC hnlL
  have htext : headingTextOf L = some (String.mk (stripChars TT)) := by
    rw [headingTextOf, if_pos hC, hstrip, hstripTT]
  have hleadW : ∀ c ∈ W ++ lead, isWS c = true := by
    intro c hc
    rcases List.mem_append.mp hc with hc | hc
    · exact hW c hc
    · exact hlead c hc
  have hleadWlen : (W ++ lead).length ≤ 3 := by
    rw [List.length_append, hleadeq]
    exact hlen
  cases LS2 with
  | nil =>
      have htry : tryEnd TR = some TR.length := tryEnd_allws hTR
      have huform : W ++ joinLines [L]
          = (W ++ lead) ++ (H ++ (S1 ++ (TT ++ TR))) := by
        rw [joinLines_one, hsplit]
        simp [List.append_assoc]
      refine ⟨TT, (W ++ lead).length + H.length + (S1.length + (TT.length + TR.length)),
        ?_, ?_, [], [], [], ?_, Or.inl ⟨rfl, rfl⟩, by simp, by simp⟩
      · rw [huform]
        exact matchAt_compute hleadW hleadWlen hH hH1 hH6 hS1 hS11 hTTne hTTnl
          hTThead hTTlast htry
      · rw [htext, hstripTT]
      · rw [huform, drop_concat4, List.drop_length]
        simp [joinLines_nil]
  | cons Y LS2' =>
      have hJ : joinLines (L :: Y :: LS2') = L ++ '\n' :: joinLines (Y :: LS2') :=
        joinLines_cons_cons L Y LS2'
      rcases end_spec (Y :: LS2') TR hTR hnl2 with ⟨htry, hblank⟩ |
        ⟨Bd, Lp, LS4, hsplit2, hBd, hLp, vend, htry, hdrop⟩
      · have huform : W ++ joinLines (L :: Y :: LS2')
            = (W ++ lead) ++ (H ++ (S1 ++ (TT ++ (TR ++ '\n' :: joinLines (Y :: LS2'))))) := by
          rw [hJ, hsplit]
          simp [List.append_assoc]
        refine ⟨TT, (W ++ lead).length + H.length
            + (S1.length + (TT.length + (TR ++ '\n' :: joinLines (Y :: LS2')).length)),
          ?_, ?_, [], [], Y :: LS2', ?_, Or.inl ⟨rfl, rfl⟩, by simp, hblank⟩
        · rw [huform]
          exact matchAt_compute hleadW hleadWlen hH hH1 hH6 hS1 hS11 hTTne hTTnl
            hTThead hTTlast htry
        · rw [htext, hstripTT]
        · rw [huform, drop_concat4, List.drop_length]
          simp [joinLines_nil]
      · have huform : W ++ joinLines (L :: Y :: LS2')
            = (W ++ lead) ++ (H ++ (S1 ++ (TT ++ (TR ++ '\n' :: joinLines (Y :: LS2'))))) := by
          rw [hJ, hsplit]
          simp [List.append_assoc]
        refine ⟨TT, (W ++ lead).length + H.length + (S1.length + (TT.length + vend)),
          ?_, ?_, ['\n'], Lp :: LS4, Bd, ?_, Or.inr rfl,
          hsplit2, hBd⟩
        · rw [huform]
          exact matchAt_compute hleadW hleadWlen hH hH1 hH6 hS1 hS11 hTTne hTTnl
            hTThead hTTlast htry
        · rw [htext, hstripTT]
        · rw [huform, drop_concat4, hdrop]
          rfl

/-- Soundness of a match at an anchored position: if the regex fires on
whitespace followed by a non-blank, non-degenerate, newline-free line and
further lines, then that line is a clean heading line, and the group and
resume point are the ones `matchAt_line_some` computes. -/
theorem matchAt_line_sound {W L : List Char} {LS2 : List (List Char)}
    {g : List Char} {n : Nat}
    (hW : ∀ c ∈ W, isWS c = true)
    (hLnb : ¬ ∀ c ∈ L, isWS c = true)
    (hnlL : ∀ c ∈ L, c ≠ '\n')
    (hdeg : DegenerateHashLine L = false)
    (hnl2 : ∀ X ∈ LS2, ∀ c ∈ X, c ≠ '\n')
    (hm : matchAt (W ++ joinLines (L :: LS2)) = some (g, n)) :
    CleanHeadingLine L = true
    ∧ headingTextOf L = some (String.mk (stripChars g))
    ∧ ∃ W2 LS3 Bd, (W ++ joinLines (L :: LS2)).drop n = W2 ++ joinLines LS3
        ∧ ((W2 = [] ∧ LS3 = []) ∨ W2 = ['\n'])
        ∧ LS2 = Bd ++ LS3
        ∧ (∀ X ∈ Bd, ∀ c ∈ X, isWS c = true) := by
  obtain ⟨rest, hrest, hresthead⟩ :
      ∃ rest, joinLines (L :: LS2) = L ++ rest
        ∧ (rest = [] ∨ rest.head? = some '\n') := by
    cases LS2 with
    | nil => exact ⟨[], by simp [joinLines_one], Or.inl rfl⟩
    | cons Y LS2' => exact ⟨'\n' :: joinLines (Y :: LS2'), rfl, Or.inr rfl⟩
  have hl1ne : L.dropWhile isWS ≠ [] := by
    intro habs
    exact hLnb (List.dropWhile_eq_nil_iff.mp habs)
  have hmr := hm
  rw [hrest, ← List.append_assoc] at hmr
  have htwU : ((W ++ L) ++ rest).takeWhile isWS = W ++ L.takeWhile isWS := by
    rw [List.append_assoc, tw_append_all hW, (tw_dw_append_stop hl1ne rest).1]
  have hdwU : ((W ++ L) ++ rest).dropWhile isWS = L.dropWhile isWS ++ rest := by
    rw [List.append_assoc, dw_append_all hW, (tw_dw_append_stop hl1ne rest).2]
  have hrestnothash : rest.takeWhile (fun c => decide (c = '#')) = [] := by
    rcases hresthead with rfl | hh
    · rfl
    · cases rest with
      | nil => rfl
      | cons r0 rest' =>
          simp at hh
          subst hh
          exact tw_cons_neg (by decide) rest'
  have hrestdw : rest.dropWhile (fun c => decide (c = '#')) = rest := by
    rcases hresthead with rfl | hh
    · rfl
    · cases rest with
      | nil => rfl
      | cons r0 rest' =>
          simp at hh
          subst hh
          exact dw_cons_neg (by decide) rest'
  have hhs : (L.dropWhile isWS ++ rest).takeWhile (fun c => decide (c = '#'))
      = (L.dropWhile isWS).takeWhile (fun c => decide (c = '#')) := by
    by_cases haft : (L.dropWhile isWS).dropWhile (fun c => decide (c = '#')) = []
    · have hall : ∀ c ∈ L.dropWhile isWS, (fun c => decide (c = '#')) c = true :=
        List.dropWhile_eq_nil_iff.mp haft
      rw [tw_append_all hall, hrestnothash, List.append_nil,
        takeWhile_eq_self_of_all hall]
    · exact (tw_dw_append_stop haft rest).1
  have hl2U : (L.dropWhile isWS ++ rest).dropWhile (fun c => decide (c = '#'))
      = (L.dropWhile isWS).dropWhile (fun c => decide (c = '#')) ++ rest := by
    by_cases haft : (L.dropWhile isWS).dropWhile (fun c => decide (c = '#')) = []
    · have hall : ∀ c ∈ L.dropWhile isWS, (fun c => decide (c = '#')) c = true :=
        List.dropWhile_eq_nil_iff.mp haft
      rw [dw_append_all hall, hrestdw, haft, List.nil_append]
    · exact (tw_dw_append_stop haft rest).2
  simp only [matchAt] at hmr
  rw [htwU] at hmr
  by_cases h1 : 3 < (W ++ L.takeWhile isWS).length
  · rw [if_pos h1] at hmr
    exact absurd hmr (by simp)
  · rw [if_neg h1] at hmr
    rw [hdwU, hhs, hl2U] at hmr
    by_cases h2 : (((L.dropWhile isWS).takeWhile (fun c => decide (c = '#'))).length = 0)
        ∨ (6 < ((L.dropWhile isWS).takeWhile (fun c => decide (c = '#'))).length)
    · rw [if_pos (by simpa using h2)] at hmr
      exact absurd hmr (by simp)
    · rw [if_neg (by simpa using h2)] at hmr
      push_neg at h2
      obtain ⟨hh0, hh6⟩ := h2
      have hlen3 : W.length + (L.takeWhile isWS).length ≤ 3 := by
        rw [← List.length_append]
        omega
      by_cases htaft : ((L.dropWhile isWS).dropWhile (fun c => decide (c = '#'))).dropWhile isWS = []
      · exfalso
        have : DegenerateHashLine L = true := (degenerate_iff L).mpr
          ⟨by omega, by omega, by omega, htaft⟩
        rw [this] at hdeg
        exact absurd hdeg (by simp)
      · have hwrun : ((L.dropWhile isWS).dropWhile (fun c => decide (c = '#')) ++ rest).takeWhile isWS
            = ((L.dropWhile isWS).dropWhile (fun c => decide (c = '#'))).takeWhile isWS :=
          (tw_dw_append_stop htaft rest).1
        rw [hwrun] at hmr
        by_cases hs0 : (((L.dropWhile isWS).dropWhile (fun c => decide (c = '#'))).takeWhile isWS).length = 0
        · rw [hs0] at hmr
          exact absurd hmr (by simp [plusMatch])
        · have hC : CleanHeadingLine L = true := (clean_iff L).mpr
            ⟨by omega, by omega, by omega, by omega, htaft⟩
          obtain ⟨g2, n2, hm2, htext2, hcont2⟩ :=
            matchAt_line_some hW hC hnlL hnl2 hlen3
          rw [hm] at hm2
          obtain ⟨hg, hn⟩ : g = g2 ∧ n = n2 := by
            have h := Option.some.inj hm2
            exact ⟨congrArg Prod.fst h, congrArg Prod.snd h⟩
          subst hg
          subst hn
          exact ⟨hC, htext2, hcont2⟩

theorem scanHeads_nil (fuel off : Nat) (a : Bool) :
    scanHeads fuel [] off a = [] := by
  cases fuel <;> rfl

theorem scanHeads_fuel : ∀ (f1 : Nat) {l : List Char} (f2 off : Nat) (a : Bool),
    l.length ≤ f1 → l.length ≤ f2 →
    scanHeads f1 l off a = scanHeads f2 l off a := by
  intro f1
  induction f1 with
  | zero =>
      intro l f2 off a h1 _
      have hl : l = [] := List.length_eq_zero.mp (Nat.le_zero.mp h1)
      subst hl
      rw [scanHeads_nil, scanHeads_nil]
  | succ f ih =>
      intro l f2 off a h1 h2
      cases l with
      | nil => rw [scanHeads_nil, scanHeads_nil]
      | cons c rest =>
          cases f2 with
          | zero => simp at h2
          | succ f2' =>
              have hr1 : rest.length ≤ f := by
                simp at h1
                omega
              have hr2 : rest.length ≤ f2' := by
                simp at h2
                omega
              simp only [scanHeads]
              cases a with
              | false =>
                  simp only [Bool.false_eq_true, if_false]
                  exact ih f2' (off+1) _ hr1 hr2
              | true =>
                  simp only [if_true]
                  cases hm : matchAt (c :: rest) with
                  | none => exact ih f2' (off+1) _ hr1 hr2
                  | some gn =>
                      obtain ⟨g, n⟩ := gn
                      have hn := matchAt_pos hm
                      have hd1 : ((c :: rest).drop n).length ≤ f := by
                        rw [List.length_drop]
                        simp
                        omega
                      have hd2 : ((c :: rest).drop n).length ≤ f2' := by
                        rw [List.length_drop]
                        simp
                        omega
                      simp only []
                      rw [ih f2' (off+n) _ hd1 hd2]

/-- The scanner with its canonical fuel. -/
def scanH (l : List Char) (off : Nat) (a : Bool) : List (String × Nat) :=
  scanHeads l.length l off a

theorem scanH_nil (off : Nat) (a : Bool) : scanH [] off a = [] := rfl

theorem scanH_cons_false (c : Char) (rest : List Char) (off : Nat) :
    scanH (c :: rest) off false = scanH rest (off + 1) (decide (c = '\n')) := by
  simp only [scanH, List.length_cons, scanHeads, Bool.false_eq_true, if_false]

theorem scanH_cons_true_none {c : Char} {rest : List Char}
    (h : matchAt (c :: rest) = none) (off : Nat) :
    scanH (c :: rest) off true = scanH rest (off + 1) (decide (c = '\n')) := by
  simp only [scanH, List.length_cons, scanHeads, if_true, h]

theorem scanH_cons_true_some {c : Char} {rest : List Char} {g : List Char} {n : Nat}
    (h : matchAt (c :: rest) = some (g, n)) (off : Nat) :
    scanH (c :: rest) off true
      = (String.mk (stripChars g), off) ::
          scanH ((c :: rest).drop n) (off + n)
            ((((c :: rest).take n).getLast?) == some '\n') := by
  have hn := matchAt_pos h
  simp only [scanH, List.length_cons, scanHeads, if_true, h]
  congr 1
  apply scanHeads_fuel
  · rw [List.length_drop]
    simp
    omega
  · exact Nat.le_refl _

/-- Scanning a newline-free tail from an unanchored position finds
nothing. -/
theorem scanH_walk_end : ∀ (M : List Char), (∀ c ∈ M, c ≠ '\n') →
    ∀ (off : Nat), scanH M off false = [] := by
  intro M
  induction M with
  | nil => intro _ off; exact scanH_nil off false
  | cons c M' ih =>
      intro h off
      rw [scanH_cons_false, decide_eq_false (h c (by simp))]
      exact ih (fun d hd => h d (by simp [hd])) (off + 1)

/-- Walking over a newline-free segment from an unanchored position reaches
the position right after the next newline, anchored, having found
nothing. -/
theorem scanH_walk : ∀ (M : List Char), (∀ c ∈ M, c ≠ '\n') →
    ∀ (X : List Char) (off : Nat),
    scanH (M ++ '\n' :: X) off false = scanH X (off + M.length + 1) true := by
  intro M
  induction M with
  | nil =>
      intro _ X off
      rw [List.nil_append, scanH_cons_false]
      simp
  | cons c M' ih =>
      intro h X off
      rw [List.cons_append, scanH_cons_false, decide_eq_false (h c (by simp)),
        ih (fun d hd => h d (by simp [hd])) X (off + 1)]
      congr 1
      simp
      omega

/-- Scanning all-whitespace text finds nothing: the regex needs a `#`. -/
theorem scanH_allws : ∀ (u : List Char), (∀ c ∈ u, isWS c = true) →
    ∀ (off : Nat) (a : Bool), scanH u off a = [] := by
  intro u
  induction u with
  | nil => intro _ off a; exact scanH_nil off a
  | cons c u' ih =>
      intro h off a
      have hrest : ∀ d ∈ u', isWS d = true := fun d hd => h d (by simp [hd])
      cases a with
      | false =>
          rw [scanH_cons_false]
          exact ih hrest (off + 1) _
      | true =>
          rw [scanH_cons_true_none (matchAt_allws h) off]
          exact ih hrest (off + 1) _

theorem scanHeads_off_lb : ∀ (fuel : Nat) (l : List Char) (off : Nat) (a : Bool)
    (p : String × Nat), p ∈ scanHeads fuel l off a → off ≤ p.2 := by
  intro fuel
  induction fuel with
  | zero =>
      intro l off a p hp
      simp [scanHeads] at hp
  | succ f ih =>
      intro l off a p hp
      cases l with
      | nil => rw [scanHeads_nil] at hp; simp at hp
      | cons c rest =>
          simp only [scanHeads] at hp
          cases a with
          | false =>
              simp only [Bool.false_eq_true, if_false] at hp
              exact Nat.le_of_succ_le (ih rest (off+1) _ p hp)
          | true =>
              simp only [if_true] at hp
              cases hm : matchAt (c :: rest) with
              | none =>
                  rw [hm] at hp
                  exact Nat.le_of_succ_le (ih rest (off+1) _ p hp)
              | some gn =>
                  obtain ⟨g, n⟩ := gn
                  have hn := matchAt_pos hm
                  rw [hm] at hp
                  rcases List.mem_cons.mp hp with rfl | hp
                  · exact Nat.le_refl _
                  · have := ih _ (off+n) _ p hp
                    omega

theorem scanHeads_snd_sorted : ∀ (fuel : Nat) (l : List Char) (off : Nat) (a : Bool),
    List.Pairwise (fun p q : String × Nat => p.2 < q.2) (scanHeads fuel l off a) := by
  intro fuel
  induction fuel with
  | zero =>
      intro l off a
      simp [scanHeads]
  | succ f ih =>
      intro l off a
      cases l with
      | nil => rw [scanHeads_nil]; exact List.Pairwise.nil
      | cons c rest =>
          simp only [scanHeads]
          cases a with
          | false =>
              simp only [Bool.false_eq_true, if_false]
              exact ih rest (off+1) _
          | true =>
              simp only [if_true]
              cases hm : matchAt (c :: rest) with
              | none => exact ih rest (off+1) _
              | some gn =>
                  obtain ⟨g, n⟩ := gn
                  have hn := matchAt_pos hm
                  refine List.Pairwise.cons ?_ (ih _ (off+n) _)
                  intro q hq
                  have := scanHeads_off_lb f _ (off+n) _ q hq
                  simp only []
                  omega

theorem blank_not_clean {L : List Char} (h : ∀ c ∈ L, isWS c = true) :
    CleanHeadingLine L = false := by
  apply Bool.eq_false_iff.mpr
  intro hC
  obtain ⟨_, hh1, _, _, _⟩ := (clean_iff L).mp hC
  rw [List.dropWhile_eq_nil_iff.mpr h] at hh1
  simp at hh1

theorem headingTextOf_none {L : List Char} (h : CleanHeadingLine L = false) :
    headingTextOf L = none := by
  rw [headingTextOf, if_neg (by simp [h])]

theorem filterMap_headText_blanks : ∀ (Bd : List (List Char)) (LS3 : List (List Char)),
    (∀ X ∈ Bd, ∀ c ∈ X, isWS c = true) →
    (Bd ++ LS3).filterMap headingTextOf = LS3.filterMap headingTextOf := by
  intro Bd
  induction Bd with
  | nil => intro LS3 _; rfl
  | cons X Bd' ih =>
      intro LS3 h
      rw [List.cons_append,
        List.filterMap_cons_none (headingTextOf_none (blank_not_clean (h X (by simp)))),
        ih LS3 (fun Y hY => h Y (by simp [hY]))]

/-- Master induction for the scanner: scanning a whitespace prefix followed
by the newline-joined lines yields exactly the clean heading lines' texts in
order, provided every line is newline-free and non-degenerate and the scan
is anchored whenever it stands at a line start. -/
theorem scan_master : ∀ (nLS : Nat) (LS : List (List Char)), LS.length ≤ nLS →
    (∀ L ∈ LS, ∀ c ∈ L, c ≠ '\n') →
    (∀ L ∈ LS, DegenerateHashLine L = false) →
    ∀ (nW : Nat) (W : List Char), W.length ≤ nW → (∀ c ∈ W, isWS c = true) →
    ∀ (off : Nat) (a : Bool),
    (LS ≠ [] → W = [] → a = true) →
    (LS ≠ [] → W ≠ [] → W.getLast? = some ('\n')) →
    (scanH (W ++ joinLines LS) off a).map Prod.fst = LS.filterMap headingTextOf := by
  intro nLS
  induction nLS with
  | zero =>
      intro LS hLS _ _ nW W _ hWws off a _ _
      have hLSnil : LS = [] := List.length_eq_zero.mp (Nat.le_zero.mp hLS)
      subst hLSnil
      rw [joinLines_nil, List.append_nil, scanH_allws W hWws off a]
      rfl
  | succ nL ihL =>
      intro LS hLS hnl hdeg
      have ihL2 : ∀ (LS2 : List (List Char)), LS2.length ≤ nL →
          (∀ L ∈ LS2, ∀ c ∈ L, c ≠ '\n') →
          (∀ L ∈ LS2, DegenerateHashLine L = false) →
          ∀ (W : List Char), (∀ c ∈ W, isWS c = true) →
          ∀ (off : Nat) (a : Bool),
          (LS2 ≠ [] → W = [] → a = true) →
          (LS2 ≠ [] → W ≠ [] → W.getLast? = some ('\n')) →
          (scanH (W ++ joinLines LS2) off a).map Prod.fst
            = LS2.filterMap headingTextOf :=
        fun LS2 h1 h2 h3 W h4 off a h5 h6 =>
          ihL LS2 h1 h2 h3 W.length W (Nat.le_refl _) h4 off a h5 h6
      have hcont : ∀ (LS3 : List (List Char)), LS3.length ≤ nL →
          (∀ X ∈ LS3, ∀ c ∈ X, c ≠ '\n') →
          (∀ X ∈ LS3, DegenerateHashLine X = false) →
          ∀ (W2 : List Char), ((W2 = [] ∧ LS3 = []) ∨ W2 = ['\n']) →
          ∀ (off2 : Nat) (a2 : Bool),
          (scanH (W2 ++ joinLines LS3) off2 a2).map Prod.fst
            = LS3.filterMap headingTextOf := by
        intro LS3 h1 h2 h3 W2 hshape off2 a2
        rcases hshape with ⟨rfl, rfl⟩ | rfl
        · rw [joinLines_nil, List.append_nil, scanH_nil]
          rfl
        · exact ihL2 LS3 h1 h2 h3 ['\n']
            (by
              intro c hc
              rw [List.mem_singleton] at hc
              subst hc
              decide)
            off2 a2 (fun _ h => absurd h (by simp)) (fun _ _ => rfl)
      have hbase : ∀ (L : List Char) (LS2 : List (List Char)),
          (L :: LS2 : List (List Char)).length ≤ nL + 1 →
          (∀ X ∈ L :: LS2, ∀ c ∈ X, c ≠ '\n') →
          (∀ X ∈ L :: LS2, DegenerateHashLine X = false) →
          ∀ (off : Nat),
          (scanH (joinLines (L :: LS2)) off true).map Prod.fst
            = (L :: LS2).filterMap headingTextOf := by
        intro L LS2 hlen hnlA hdegA off
        have hnlL : ∀ c ∈ L, c ≠ '\n' := hnlA L (by simp)
        have hnl2 : ∀ X ∈ LS2, ∀ c ∈ X, c ≠ '\n' := fun X hX => hnlA X (by simp [hX])
        have hdegL : DegenerateHashLine L = false := hdegA L (by simp)
        have hdeg2 : ∀ X ∈ LS2, DegenerateHashLine X = false :=
          fun X hX => hdegA X (by simp [hX])
        have hlen2 : LS2.length ≤ nL := by
          simp at hlen
          omega
        by_cases hLb : ∀ c ∈ L, isWS c = true
        · cases LS2 with
          | nil =>
              rw [joinLines_one, scanH_allws L hLb off true,
                List.filterMap_cons_none (headingTextOf_none (blank_not_clean hLb))]
              rfl
          | cons Y LS2' =>
              have heq : joinLines (L :: Y :: LS2')
                  = (L ++ ['\n']) ++ joinLines (Y :: LS2') := by
                rw [joinLines_cons_cons]
                simp
              rw [heq,
                ihL2 (Y :: LS2') hlen2 hnl2 hdeg2 (L ++ ['\n'])
                  (by
                    intro c hc
                    rcases List.mem_append.mp hc with hc | hc
                    · exact hLb c hc
                    · rw [List.mem_singleton] at hc
                      subst hc
                      decide)
                  off true (fun _ h => absurd h (by simp))
                  (fun _ _ => List.getLast?_concat L),
                List.filterMap_cons_none (headingTextOf_none (blank_not_clean hLb))]
        · have hLne : L ≠ [] := by
            intro habs
            apply hLb
            subst habs
            intro c hc
            simp at hc
          obtain ⟨c0, L1, hL0⟩ : ∃ c0 L1, L = c0 :: L1 := by
            cases L with
            | nil => exact absurd rfl hLne
            | cons a b => exact ⟨a, b, rfl⟩
          obtain ⟨rest, hrest⟩ := joinLines_cons_rest L LS2
          have huform : joinLines (L :: LS2) = c0 :: (L1 ++ rest) := by
            rw [hrest, hL0, List.cons_append]
          by_cases hC : CleanHeadingLine L = true
          · have h3 : ([] : List Char).length + (L.takeWhile isWS).length ≤ 3 := by
              obtain ⟨h3a, _, _, _, _⟩ := (clean_iff L).mp hC
              simpa using h3a
            obtain ⟨g, n, hm, htext, W2, LS3, Bd, hdropEq, hW2shape, hLS2split, hBdblank⟩ :=
              @matchAt_line_some [] L LS2 (by simp) hC hnlL hnl2 h3
            rw [List.nil_append] at hm hdropEq
            rw [huform] at hm hdropEq ⊢
            rw [scanH_cons_true_some hm off, List.map_cons, hdropEq]
            have hlen3 : LS3.length ≤ nL := by
              have : LS2.length = Bd.length + LS3.length := by
                rw [hLS2split, List.length_append]
              omega
            rw [hcont LS3 hlen3
              (fun X hX => hnl2 X (by rw [hLS2split]; exact List.mem_append.mpr (Or.inr hX)))
              (fun X hX => hdeg2 X (by rw [hLS2split]; exact List.mem_append.mpr (Or.inr hX)))
              W2 hW2shape (off+n) _]
            rw [List.filterMap_cons_some htext, hLS2split,
              filterMap_headText_blanks Bd LS3 hBdblank]
          · have hmnone : matchAt (joinLines (L :: LS2)) = none := by
              cases hm : matchAt (joinLines (L :: LS2)) with
              | none => rfl
              | some gn =>
                  obtain ⟨g, n⟩ := gn
                  have hs := @matchAt_line_sound [] L LS2 g n (by simp) hLb hnlL hdegL hnl2
                    (by rw [List.nil_append]; exact hm)
                  exact absurd hs.1 hC
            rw [huform] at hmnone ⊢
            rw [scanH_cons_true_none hmnone off]
            have hc0 : decide (c0 = '\n') = false := by
              have := hnlL c0 (by rw [hL0]; simp)
              simp [this]
            rw [hc0]
            have hL1nl : ∀ c ∈ L1, c ≠ '\n' := fun c hc => hnlL c (by rw [hL0]; simp [hc])
            cases LS2 with
            | nil =>
                have hrest0 : rest = [] := by
                  rw [joinLines_one] at hrest
                  have hlenr := congrArg List.length hrest
                  rw [List.length_append] at hlenr
                  have : rest.length = 0 := by omega
                  exact List.length_eq_zero.mp this
                subst hrest0
                rw [List.append_nil, scanH_walk_end L1 hL1nl (off+1),
                  List.filterMap_cons_none (headingTextOf_none (Bool.eq_false_iff.mpr hC))]
                rfl
            | cons Y LS2' =>
                have hrestv : rest = '\n' :: joinLines (Y :: LS2') := by
                  rw [joinLines_cons_cons] at hrest
                  exact (List.append_cancel_left hrest).symm
                subst hrestv
                rw [scanH_walk L1 hL1nl _ (off+1)]
                have hrec := ihL2 (Y :: LS2') hlen2 hnl2 hdeg2 [] (by simp)
                  (off + 1 + L1.length + 1) true (fun _ _ => rfl)
                  (fun _ h => absurd rfl h)
                rw [List.nil_append] at hrec
                rw [hrec,
                  List.filterMap_cons_none (headingTextOf_none (Bool.eq_false_iff.mpr hC))]
      intro nW
      induction nW with
      | zero =>
          intro W hW hWws off a hWa hWlast
          have hWnil : W = [] := List.length_eq_zero.mp (Nat.le_zero.mp hW)
          subst hWnil
          rw [List.nil_append]
          cases LS with
          | nil => rw [joinLines_nil, scanH_nil]; rfl
          | cons L LS2 =>
              have ha : a = true := hWa (by simp) rfl
              subst ha
              exact hbase L LS2 hLS hnl hdeg off
      | succ nw ihW =>
          intro W hW hWws off a hWa hWlast
          cases W with
          | nil =>
              rw [List.nil_append]
              cases LS with
              | nil => rw [joinLines_nil, scanH_nil]; rfl
              | cons L LS2 =>
                  have ha : a = true := hWa (by simp) rfl
                  subst ha
                  exact hbase L LS2 hLS hnl hdeg off
          | cons w W1 =>
              have hwws : isWS w = true := hWws w (by simp)
              have hW1ws : ∀ c ∈ W1, isWS c = true := fun c hc => hWws c (by simp [hc])
              have hW1len : W1.length ≤ nw := by
                simp at hW
                omega
              have hinv1 : LS ≠ [] → W1 = [] → decide (w = '\n') = true := by
                intro hne hW1
                have hlast := hWlast hne (by simp)
                subst hW1
                simp at hlast
                simp [hlast]
              have hinv2 : LS ≠ [] → W1 ≠ [] → W1.getLast? = some ('\n') := by
                intro hne hW1
                have hlast := hWlast hne (by simp)
                cases W1 with
                | nil => exact absurd rfl hW1
                | cons x xs =>
                    rw [List.getLast?_cons_cons] at hlast
                    exact hlast
              cases a with
              | false =>
                  rw [List.cons_append, scanH_cons_false]
                  exact ihW W1 hW1len hW1ws (off+1) _ hinv1 hinv2
              | true =>
                  cases LS with
                  | nil =>
                      rw [joinLines_nil, List.append_nil, scanH_allws _ hWws off true]
                      rfl
                  | cons L LS2 =>
                      have hnlL : ∀ c ∈ L, c ≠ '\n' := hnl L (by simp)
                      have hnl2 : ∀ X ∈ LS2, ∀ c ∈ X, c ≠ '\n' :=
                        fun X hX => hnl X (by simp [hX])
                      have hdegL : DegenerateHashLine L = false := hdeg L (by simp)
                      have hdeg2 : ∀ X ∈ LS2, DegenerateHashLine X = false :=
                        fun X hX => hdeg X (by simp [hX])
                      have hlen2 : LS2.length ≤ nL := by
                        simp at hLS
                        omega
                      by_cases hLb : ∀ c ∈ L, isWS c = true
                      · cases LS2 with
                        | nil =>
                            rw [joinLines_one]
                            rw [scanH_allws _ (by
                              intro c hc
                              rcases List.mem_append.mp hc with hc | hc
                              · exact hWws c hc
                              · exact hLb c hc) off true]
                            rw [List.filterMap_cons_none
                              (headingTextOf_none (blank_not_clean hLb))]
                            rfl
                        | cons Y LS2' =>
                            have heq : (w :: W1) ++ joinLines (L :: Y :: LS2')
                                = ((w :: W1) ++ (L ++ ['\n'])) ++ joinLines (Y :: LS2') := by
                              rw [joinLines_cons_cons]
                              simp
                            rw [heq,
                              ihL2 (Y :: LS2') hlen2 hnl2 hdeg2 ((w :: W1) ++ (L ++ ['\n']))
                                (by
                                  intro c hc
                                  rcases List.mem_append.mp hc with hc | hc
                                  · exact hWws c hc
                                  · rcases List.mem_append.mp hc with hc | hc
                                    · exact hLb c hc
                                    · rw [List.mem_singleton] at hc
                                      subst hc
                                      decide)
                                off true (fun _ h => absurd h (by simp))
                                (fun _ _ => by
                                  rw [List.getLast?_append_of_ne_nil _ (by simp)]
                                  exact List.getLast?_concat L),
                              List.filterMap_cons_none
                                (headingTextOf_none (blank_not_clean hLb))]
                      · cases hm : matchAt ((w :: W1) ++ joinLines (L :: LS2)) with
                        | none =>
                            have hm2 : matchAt (w :: (W1 ++ joinLines (L :: LS2))) = none := by
                              rw [← List.cons_append]
                              exact hm
                            rw [List.cons_append, scanH_cons_true_none hm2 off]
                            exact ihW W1 hW1len hW1ws (off+1) _ hinv1 hinv2
                        | some gn =>
                            obtain ⟨g, n⟩ := gn
                            obtain ⟨hC, htext, W2, LS3, Bd, hdropEq, hW2shape, hLS2split, hBdblank⟩ :=
                              matchAt_line_sound hWws hLb hnlL hdegL hnl2 hm
                            have hm2 : matchAt (w :: (W1 ++ joinLines (L :: LS2)))
                                = some (g, n) := by
                              rw [← List.cons_append]
                              exact hm
                            have hdropEq2 : (w :: (W1 ++ joinLines (L :: LS2))).drop n
                                = W2 ++ joinLines LS3 := by
                              rw [← List.cons_append]
                              exact hdropEq
                            rw [List.cons_append, scanH_cons_true_some hm2 off,
                              List.map_cons, hdropEq2]
                            have hlen3 : LS3.length ≤ nL := by
                              have : LS2.length = Bd.length + LS3.length := by
                                rw [hLS2split, List.length_append]
                              omega
                            rw [hcont LS3 hlen3
                              (fun X hX => hnl2 X (by
                                rw [hLS2split]
                                exact List.mem_append.mpr (Or.inr hX)))
                              (fun X hX => hdeg2 X (by
                                rw [hLS2split]
                                exact List.mem_append.mpr (Or.inr hX)))
                              W2 hW2shape (off+n) _]
                            rw [List.filterMap_cons_some htext, hLS2split,
                              filterMap_headText_blanks Bd LS3 hBdblank]

/-- C7 (amended): for a document given as newline-joined, newline-free lines
none of which is a degenerate hash line (0-3 leading whitespace characters
and 1-6 `#` characters followed by whitespace only), `find_headings` yields
exactly one pair per clean heading line (0-3 leading whitespace characters,
1-6 `#` characters, at least one whitespace character, then heading text),
in document order, whose text is the heading text with surrounding
whitespace stripped; the offsets are strictly increasing; and the result is
empty when no line matches. -/
theorem find_headings_per_line (lines : List (List Char))
    (hnl : ∀ L ∈ lines, ('\n') ∉ L)
    (hdeg : ∀ L ∈ lines, DegenerateHashLine L = false) :
    (find_headings (String.mk (joinLines lines))).map Prod.fst
      = lines.filterMap headingTextOf
    ∧ List.Pairwise (fun p q => p < q)
        ((find_headings (String.mk (joinLines lines))).map Prod.snd) := by
  constructor
  · have hfh : find_headings (String.mk (joinLines lines))
        = scanH (joinLines lines) 0 true := rfl
    rw [hfh]
    have hm := scan_master lines.length lines (Nat.le_refl _)
      (fun L hL c hc heq => hnl L hL (heq ▸ hc))
      hdeg 0 [] (by simp) (by simp) 0 true
      (fun _ _ => rfl) (fun _ h => absurd rfl h)
    rw [List.nil_append] at hm
    exact hm
  · rw [List.pairwise_map]
    exact scanHeads_snd_sorted _ _ 0 true

theorem find_headings_per_line_witness :
    ((∀ L ∈ [("# A").data, ("").data, ("body").data, ("  ## B ").data], ('\n') ∉ L)
      ∧ (∀ L ∈ [("# A").data, ("").data, ("body").data, ("  ## B ").data],
          DegenerateHashLine L = false))
    ∧ ((find_headings (String.mk
          (joinLines [("# A").data, ("").data, ("body").data, ("  ## B ").data]))).map Prod.fst
        = [("# A").data, ("").data, ("body").data, ("  ## B ").data].filterMap headingTextOf
      ∧ List.Pairwise (fun p q => p < q)
          ((find_headings (String.mk
            (joinLines [("# A").data, ("").data, ("body").data, ("  ## B ").data]))).map Prod.snd)) :=
  ⟨⟨by decide, by decide⟩,
    find_headings_per_line [("# A").data, ("").data, ("body").data, ("  ## B ").data]
      (by decide) (by decide)⟩

end CTA
